import Mathlib

/-!
# Verification of the stackdriver_exporter collection engine

Shallow embedding, in Lean 4, of the parts of the
prometheus-community/stackdriver_exporter sources that the specification's
testable properties talk about:

* `hash/fnv.go`                       — FNV-1a 64-bit hashing
* `delta/counter.go`                  — in-memory delta counter / histogram stores
* `collectors/timeseries.go`          — `HistogramMetric.MergeHistogram`
* `collectors/monitoring_collector.go`— `Collect` self-metrics, `generateHistogramBuckets`
* `collectors/descriptor_cache.go`    — `descriptorCache.Lookup` / `Store`
* `stackdriver_exporter.go`           — `parseMetricTypePrefixes`, `handler.filterMetricTypePrefixes`
* `utils/utils.go`                    — `NormalizeMetricName` (with the camel-case splitter)

Modelling conventions:
* Go strings are byte sequences; they are modelled as `List Nat` (byte
  values).  The Mathlib lexicographic order on lists coincides with Go's
  bytewise string comparison.
* `float64` quantities are modelled as `ℚ` (exact field arithmetic); the
  special value `+Inf`, which the bucketizer uses as a map key, is modelled
  by an explicit extended type `GoFloat`.
* `uint64` arithmetic is `Nat` arithmetic reduced `% 2 ^ 64` wherever the
  code can overflow.
* `time.Time` values are modelled as `ℤ` instants; `t.Before(u)` is `t < u`
  and `t.After(u)` is `u < t`.
* Go maps are modelled as `k → Option v` functions (for keyed stores) or as
  association lists (for maps that the code iterates over); Go structs are
  records.  A Go struct copy (`x := *p`) copies the record fields; a field
  holding a Go map is a *reference*, modelled as an index into an explicit
  heap where aliasing matters.
-/

namespace Stackdriver

/-- A Go string: its sequence of bytes. -/
abbrev Str : Type := List Nat

/-! ## hash/fnv.go -/

/-- FNV-1a 64-bit offset basis (`offset64`). -/
def offset64 : Nat := 14695981039346656037

/-- FNV-1a 64-bit prime (`prime64`). -/
def prime64 : Nat := 1099511628211

/-- `hash.New`: a fresh fnv64a hash value. -/
def hashNew : Nat := offset64

/-- One FNV-1a step (`hash.AddByte`): `h ^= b; h *= prime64` in uint64. -/
def hashAddByte (h b : Nat) : Nat := ((h ^^^ b) * prime64) % 2 ^ 64

/-- `hash.Add`: absorb a string byte by byte. -/
def hashAdd (h : Nat) (s : Str) : Nat := s.foldl hashAddByte h

/-! ## collectors/timeseries.go — the record types -/

/-- `prometheus.ValueType` as used by `ConstMetric` (gauge or counter). -/
inductive PromValueType
  | gauge
  | counter
deriving DecidableEq

/-- `collectors.ConstMetric` (a plain value record; no reference fields). -/
structure ConstMetric where
  fqName : Str
  labelKeys : List Str
  valueType : PromValueType
  value : ℚ
  labelValues : List Str
  reportTime : ℤ
  collectionTime : ℤ
  keysHash : Nat
deriving DecidableEq

/-! ## delta/counter.go — the in-memory delta counter store -/

/-- The Go loop `for i := range keys { labels[keys[i]] = values[i] }`
followed by the lookup `labels[k]`: the last value written for `k`
(Go map semantics; `""` i.e. `[]` if `k` was never written). -/
def labelsLookup (keys vals : List Str) (k : Str) : Str :=
  (keys.zip vals).foldl (fun acc kv => if kv.1 = k then kv.2 else acc) []

/-- Byte value of `':'`. -/
def colonByte : Nat := 58

/-- Byte value of `'|'`. -/
def pipeByte : Nat := 124

/-- `strings.Join(parts, "|")`. -/
def joinPipe : List Str → Str
  | [] => []
  | [p] => p
  | p :: ps => p ++ pipeByte :: joinPipe ps

/-- The text hashed by `toCounterKey`:
`fqName + "|" + join("|", for k in sort(labelKeys): k + ":" + labels[k])`.
`sort.Strings` sorts ascending in the bytewise lexicographic order, which is
the Mathlib `≤` on `List Nat`. -/
def counterKeyText (fqName : Str) (labelKeys labelValues : List Str) : Str :=
  let keysCopy := List.insertionSort (· ≤ ·) labelKeys
  let keyParts :=
    keysCopy.map (fun k => k ++ colonByte :: labelsLookup labelKeys labelValues k)
  fqName ++ pipeByte :: joinPipe keyParts

/-- `toCounterKey` (delta/counter.go): FNV-1a of the counter-key text. -/
def toCounterKey (c : ConstMetric) : Nat :=
  hashAdd hashNew (counterKeyText c.fqName c.labelKeys c.labelValues)

/-- One descriptor's `Collected` map (counter key → stored record). -/
abbrev CounterEntry := Nat → Option ConstMetric

/-- Empty `Collected` map. -/
def emptyCounterEntry : CounterEntry := fun _ => none

/-- Go map store `entry.Collected[key] = v`. -/
def entrySet (e : CounterEntry) (k : Nat) (v : ConstMetric) : CounterEntry :=
  fun k' => if k' = k then some v else e k'

/-- `InMemoryCounterStore.Increment`, the part operating on one descriptor's
`Collected` map (after the `LoadOrStore` of the `MetricEntry`):

* absent key: store the incoming record;
* `existing.ReportTime.Before(currentValue.ReportTime)`: store the incoming
  record with `currentValue.Value + existing.Value`;
* otherwise: ignore the stale sample. -/
def counterIncrement (entry : CounterEntry) (currentValue : ConstMetric) : CounterEntry :=
  match entry (toCounterKey currentValue) with
  | none => entrySet entry (toCounterKey currentValue) currentValue
  | some existing =>
    if existing.reportTime < currentValue.reportTime then
      entrySet entry (toCounterKey currentValue)
        { currentValue with value := currentValue.value + existing.value }
    else
      entry

/-- The whole store: metric-descriptor name → `Collected` map. -/
abbrev CounterStore := Str → Option CounterEntry

/-- Go map store `s.store[name] = e` (the `sync.Map` keyed by descriptor name). -/
def storeSet (s : CounterStore) (name : Str) (e : CounterEntry) : CounterStore :=
  fun n => if n = name then some e else s n

/-- `InMemoryCounterStore.Increment` on the whole store: `LoadOrStore` the
descriptor's entry (an empty map when absent), then update it under the
entry's lock. -/
def storeIncrement (s : CounterStore) (descriptorName : Str) (currentValue : ConstMetric) :
    CounterStore :=
  storeSet s descriptorName
    (counterIncrement ((s descriptorName).getD emptyCounterEntry) currentValue)

/-- A scrape sequence: `Increment` once per incoming record, in order. -/
def storeIncrementAll (s : CounterStore) (descriptorName : Str) (vs : List ConstMetric) :
    CounterStore :=
  vs.foldl (fun st w => storeIncrement st descriptorName w) s

/-- Report times strictly increase along the record sequence. -/
def rtLt (a b : ConstMetric) : Prop := a.reportTime < b.reportTime

/-! ### Lemmas for C1 -/

theorem toCounterKey_congr {a b : ConstMetric}
    (h : counterKeyText a.fqName a.labelKeys a.labelValues
       = counterKeyText b.fqName b.labelKeys b.labelValues) :
    toCounterKey a = toCounterKey b := by
  unfold toCounterKey
  rw [h]

theorem entrySet_get_same (e : CounterEntry) (k : Nat) (v : ConstMetric) :
    entrySet e k v k = some v := by
  simp [entrySet]

/-- Accumulation invariant: starting from a map that already holds `ex` at the
counter key of `v0`, feeding records with the same counter-key text and
strictly increasing report times ends with the sum of all values and the last
report time. -/
theorem counterIncrement_accum (vs : List ConstMetric) :
    ∀ (e : CounterEntry) (ex v0 : ConstMetric),
      e (toCounterKey v0) = some ex →
      (∀ w ∈ vs, counterKeyText w.fqName w.labelKeys w.labelValues
               = counterKeyText v0.fqName v0.labelKeys v0.labelValues) →
      List.Chain' rtLt (ex :: vs) →
      ∃ m : ConstMetric,
        (vs.foldl counterIncrement e) (toCounterKey v0) = some m ∧
        m.value = ex.value + (vs.map ConstMetric.value).sum ∧
        m.reportTime = (vs.getLastD ex).reportTime := by
  induction vs with
  | nil =>
    intro e ex v0 hget _ _
    exact ⟨ex, hget, by simp, rfl⟩
  | cons w rest ih =>
    intro e ex v0 hget hkeys hchain
    have hkeyw : toCounterKey w = toCounterKey v0 :=
      toCounterKey_congr (hkeys w (by simp))
    have hrel : rtLt ex w := (List.chain'_cons.mp hchain).1
    have hchain' : List.Chain' rtLt (w :: rest) := (List.chain'_cons.mp hchain).2
    -- the increment merges into the existing record
    set ex' : ConstMetric := { w with value := w.value + ex.value } with hex'
    have hstep : counterIncrement e w = entrySet e (toCounterKey w) ex' := by
      unfold counterIncrement
      rw [hkeyw, hget]
      simp only [hex']
      exact if_pos hrel
    have hget' : (counterIncrement e w) (toCounterKey v0) = some ex' := by
      rw [hstep, hkeyw]
      exact entrySet_get_same _ _ _
    have hchain'' : List.Chain' rtLt (ex' :: rest) := by
      cases rest with
      | nil => simp
      | cons r rest' =>
        have h1 : rtLt w r := (List.chain'_cons.mp hchain').1
        exact List.chain'_cons.mpr ⟨h1, (List.chain'_cons.mp hchain').2⟩
    obtain ⟨m, hm, hval, hrt⟩ :=
      ih (counterIncrement e w) ex' v0 hget' (fun x hx => hkeys x (by simp [hx])) hchain''
    refine ⟨m, by simpa using hm, ?_, ?_⟩
    · rw [hval]
      simp [hex']
      ring
    · rw [hrt]
      cases rest with
      | nil => simp [hex']
      | cons r rest' => simp only [List.getLastD_cons]

theorem storeIncrementAll_get (descriptorName : Str) (vs : List ConstMetric) :
    ∀ s : CounterStore, vs ≠ [] →
      (storeIncrementAll s descriptorName vs) descriptorName =
        some (vs.foldl counterIncrement ((s descriptorName).getD emptyCounterEntry)) := by
  induction vs with
  | nil => intro s h; exact absurd rfl h
  | cons w rest ih =>
    intro s _
    cases rest with
    | nil =>
      simp [storeIncrementAll, storeIncrement, storeSet]
    | cons r rest' =>
      have step : storeIncrementAll s descriptorName (w :: r :: rest') =
          storeIncrementAll (storeIncrement s descriptorName w) descriptorName (r :: rest') := by
        simp [storeIncrementAll]
      rw [step, ih _ (by simp)]
      simp [storeIncrement, storeSet]

/-- **C1** (delta counter monotonicity).  Starting from a store whose
`Collected` map has no entry at the incoming counter key, a sequence of
`Increment(d, v), Increment(d, v₁), …` in which every record carries the same
counter-key text (same `fqName` and same sorted `key:value` label pairs) and
whose report times strictly increase leaves a stored record whose value is the
sum of all incoming values and whose report time is the last record's. -/
theorem delta_counter_monotonicity
    (s : CounterStore) (descriptorName : Str) (v : ConstMetric) (vs : List ConstMetric)
    (habsent : ((s descriptorName).getD emptyCounterEntry) (toCounterKey v) = none)
    (hkeys : ∀ w ∈ v :: vs, counterKeyText w.fqName w.labelKeys w.labelValues
               = counterKeyText v.fqName v.labelKeys v.labelValues)
    (hchain : List.Chain' rtLt (v :: vs)) :
    ∃ e : CounterEntry, ∃ m : ConstMetric,
      (storeIncrementAll s descriptorName (v :: vs)) descriptorName = some e ∧
      e (toCounterKey v) = some m ∧
      m.value = ((v :: vs).map ConstMetric.value).sum ∧
      m.reportTime = ((v :: vs).getLastD v).reportTime := by
  have hfold := storeIncrementAll_get descriptorName (v :: vs) s (by simp)
  set e0 : CounterEntry := (s descriptorName).getD emptyCounterEntry with he0
  have hfirst : counterIncrement e0 v = entrySet e0 (toCounterKey v) v := by
    unfold counterIncrement
    rw [habsent]
  have hget1 : (counterIncrement e0 v) (toCounterKey v) = some v := by
    rw [hfirst]; exact entrySet_get_same _ _ _
  obtain ⟨m, hm, hval, hrt⟩ :=
    counterIncrement_accum vs (counterIncrement e0 v) v v hget1
      (fun w hw => hkeys w (by simp [hw])) hchain
  refine ⟨(v :: vs).foldl counterIncrement e0, m, hfold, ?_, ?_, ?_⟩
  · simpa using hm
  · rw [hval]; simp
  · rw [hrt]; simp only [List.getLastD_cons]

/-- **C3** (stale-sample rejection).  If the store already has an entry at the
incoming record's counter key and the incoming report time is not later than
the stored one, `Increment` leaves the whole store unchanged. -/
theorem stale_sample_rejection
    (s : CounterStore) (descriptorName : Str) (cur existing : ConstMetric)
    (e : CounterEntry)
    (hentry : s descriptorName = some e)
    (hex : e (toCounterKey cur) = some existing)
    (hstale : cur.reportTime ≤ existing.reportTime) :
    ∀ n, storeIncrement s descriptorName cur n = s n := by
  intro n
  unfold storeIncrement
  rw [hentry]
  have hinc : counterIncrement e cur = e := by
    unfold counterIncrement
    rw [hex]
    simp only
    rw [if_neg (not_lt.mpr hstale)]
  simp only [Option.getD_some, hinc, storeSet]
  by_cases h : n = descriptorName
  · subst h; rw [if_pos rfl, hentry]
  · rw [if_neg h]

/-- Witness for C1 at a concrete input: two increments 10 then 15 at report
times 1 < 2 end with value 25 and report time 2 (spec scenario 2). -/
theorem delta_counter_monotonicity_witness :
    ∃ e : CounterEntry, ∃ m : ConstMetric,
      (storeIncrementAll (fun _ => none) [7]
          [⟨[3], [], .counter, 10, [], 1, 0, 0⟩, ⟨[3], [], .counter, 15, [], 2, 0, 0⟩]) [7]
        = some e ∧
      e (toCounterKey ⟨[3], [], .counter, 10, [], 1, 0, 0⟩) = some m ∧
      m.value = (([⟨[3], [], .counter, 10, [], 1, 0, 0⟩,
                   ⟨[3], [], .counter, 15, [], 2, 0, 0⟩] : List ConstMetric).map
                    ConstMetric.value).sum ∧
      m.reportTime = (([⟨[3], [], .counter, 10, [], 1, 0, 0⟩,
                        ⟨[3], [], .counter, 15, [], 2, 0, 0⟩] : List ConstMetric).getLastD
                        ⟨[3], [], .counter, 10, [], 1, 0, 0⟩).reportTime := by
  exact delta_counter_monotonicity (fun _ => none) [7]
    ⟨[3], [], .counter, 10, [], 1, 0, 0⟩ [⟨[3], [], .counter, 15, [], 2, 0, 0⟩]
    (by rfl) (by intro w hw; fin_cases hw <;> rfl)
    (by constructor <;> simp [rtLt])

/-- Witness for C3 at a concrete input (read back at the descriptor name
`[7]`). -/
theorem stale_sample_rejection_witness :
    storeIncrement
        (storeSet (fun _ => none) [7]
          (entrySet emptyCounterEntry
            (toCounterKey ⟨[3], [], .counter, 10, [], 5, 0, 0⟩)
            ⟨[3], [], .counter, 10, [], 5, 0, 0⟩))
        [7] ⟨[3], [], .counter, 4, [], 5, 0, 0⟩ [7] =
      (storeSet (fun _ => none) [7]
          (entrySet emptyCounterEntry
            (toCounterKey ⟨[3], [], .counter, 10, [], 5, 0, 0⟩)
            ⟨[3], [], .counter, 10, [], 5, 0, 0⟩)) [7] := by
  have hkey : toCounterKey (⟨[3], [], .counter, 4, [], 5, 0, 0⟩ : ConstMetric)
      = toCounterKey (⟨[3], [], .counter, 10, [], 5, 0, 0⟩ : ConstMetric) := rfl
  exact stale_sample_rejection _ [7] ⟨[3], [], .counter, 4, [], 5, 0, 0⟩
    ⟨[3], [], .counter, 10, [], 5, 0, 0⟩
    (entrySet emptyCounterEntry
      (toCounterKey ⟨[3], [], .counter, 10, [], 5, 0, 0⟩)
      ⟨[3], [], .counter, 10, [], 5, 0, 0⟩)
    (by simp [storeSet]) (by rw [hkey]; exact entrySet_get_same _ _ _) (by norm_num) [7]

/-! ## float64 values that can be `+Inf`

`generateHistogramBuckets` uses `math.Inf(1)` as the overflow-bucket key, so
bucket keys live in `ℚ` extended with a distinguished infinity. -/

inductive GoFloat
  | val (q : ℚ)
  | inf
deriving DecidableEq

/-! ## Histogram buckets: `map[float64]uint64` as an association list

The store iterates over this map (`for key, value := range other.Buckets`),
so it is modelled as an association list with unique keys; `bGet` is Go map
access (missing key reads as `0`), `bSet` is Go map assignment. -/

abbrev BucketMap := List (GoFloat × Nat)

/-- Go map read `m[k]` (zero value `0` when the key is absent). -/
def bGet : BucketMap → GoFloat → Nat
  | [], _ => 0
  | kv :: rest, k => if kv.1 = k then kv.2 else bGet rest k

/-- Go map write `m[k] = v`. -/
def bSet : BucketMap → GoFloat → Nat → BucketMap
  | [], k, v => [(k, v)]
  | kv :: rest, k, v => if kv.1 = k then (k, v) :: rest else kv :: bSet rest k v

/-- The keys of a bucket map. -/
def bKeys (m : BucketMap) : List GoFloat := m.map Prod.fst

/-- The loop `for key, value := range other { h[key] += value }`
(uint64 addition). -/
def bucketsAddFrom (h other : BucketMap) : BucketMap :=
  other.foldl (fun acc kv => bSet acc kv.1 ((bGet acc kv.1 + kv.2) % 2 ^ 64)) h

/-- `collectors.HistogramMetric`, as a value record (`Buckets` aliasing is
studied separately for C6 with an explicit heap). -/
structure HistogramMetric where
  fqName : Str
  labelKeys : List Str
  sum : ℚ
  count : Nat
  buckets : BucketMap
  labelValues : List Str
  reportTime : ℤ
  collectionTime : ℤ
  keysHash : Nat
deriving DecidableEq

/-- `HistogramMetric.MergeHistogram` (collectors/timeseries.go): the receiver
`h` is the incoming record, `other` the existing one.
`h.Sum += other.Sum; h.Count += other.Count;` then the bucket loop. -/
def MergeHistogram (h other : HistogramMetric) : HistogramMetric :=
  { h with
    sum := h.sum + other.sum
    count := (h.count + other.count) % 2 ^ 64
    buckets := bucketsAddFrom h.buckets other.buckets }

/-- `toHistogramKey` (delta/counter.go): same construction as `toCounterKey`. -/
def toHistogramKey (hist : HistogramMetric) : Nat :=
  hashAdd hashNew (counterKeyText hist.fqName hist.labelKeys hist.labelValues)

/-- One descriptor's `Collected` map of histograms. -/
abbrev HistogramEntry := Nat → Option HistogramMetric

/-- Empty histogram `Collected` map. -/
def emptyHistogramEntry : HistogramEntry := fun _ => none

/-- Go map store for a histogram entry. -/
def hEntrySet (e : HistogramEntry) (k : Nat) (v : HistogramMetric) : HistogramEntry :=
  fun k' => if k' = k then some v else e k'

/-- `InMemoryHistogramStore.Increment`, the part operating on one descriptor's
`Collected` map: absent → track the incoming record; newer report time →
`currentValue.MergeHistogram(existing)` and replace; otherwise ignore. -/
def histogramIncrement (entry : HistogramEntry) (currentValue : HistogramMetric) :
    HistogramEntry :=
  match entry (toHistogramKey currentValue) with
  | none => hEntrySet entry (toHistogramKey currentValue) currentValue
  | some existing =>
    if existing.reportTime < currentValue.reportTime then
      hEntrySet entry (toHistogramKey currentValue) (MergeHistogram currentValue existing)
    else
      entry

/-- The whole histogram store: descriptor name → `Collected` map. -/
abbrev HistogramStore := Str → Option HistogramEntry

/-- Go map store on the histogram store's `sync.Map`. -/
def hStoreSet (s : HistogramStore) (name : Str) (e : HistogramEntry) : HistogramStore :=
  fun n => if n = name then some e else s n

/-- `InMemoryHistogramStore.Increment` on the whole store. -/
def hStoreIncrement (s : HistogramStore) (descriptorName : Str)
    (currentValue : HistogramMetric) : HistogramStore :=
  hStoreSet s descriptorName
    (histogramIncrement ((s descriptorName).getD emptyHistogramEntry) currentValue)

/-! ### Bucket-map lemmas for C2 -/

theorem bGet_bSet_same (m : BucketMap) (k : GoFloat) (v : Nat) :
    bGet (bSet m k v) k = v := by
  induction m with
  | nil => simp [bSet, bGet]
  | cons kv rest ih =>
    by_cases h : kv.1 = k
    · simp [bSet, h, bGet]
    · simp [bSet, h, bGet, ih]

theorem bGet_bSet_other (m : BucketMap) (k k' : GoFloat) (v : Nat) (hne : k' ≠ k) :
    bGet (bSet m k v) k' = bGet m k' := by
  induction m with
  | nil => simp [bSet, bGet, Ne.symm hne]
  | cons kv rest ih =>
    by_cases h : kv.1 = k
    · subst h
      simp [bSet, bGet, Ne.symm hne, hne]
    · by_cases h' : kv.1 = k'
      · simp [bSet, h, bGet, h', hne]
      · simp [bSet, h, bGet, h', ih]

theorem bGet_eq_zero_of_not_mem (m : BucketMap) (k : GoFloat) (h : k ∉ bKeys m) :
    bGet m k = 0 := by
  induction m with
  | nil => rfl
  | cons kv rest ih =>
    simp only [bKeys, List.map_cons, List.mem_cons] at h
    push_neg at h
    have h1 : kv.1 ≠ k := Ne.symm h.1
    simp [bGet, h1, ih (by simpa [bKeys] using h.2)]

theorem mem_bKeys_bSet (m : BucketMap) (k x : GoFloat) (v : Nat) :
    x ∈ bKeys (bSet m k v) ↔ x ∈ bKeys m ∨ x = k := by
  induction m with
  | nil => simp [bSet, bKeys]
  | cons kv rest ih =>
    by_cases h : kv.1 = k
    · subst h
      simp [bSet, bKeys]
      tauto
    · simp only [bSet, if_neg h, bKeys, List.map_cons, List.mem_cons]
      rw [show (List.map Prod.fst (bSet rest k v)) = bKeys (bSet rest k v) from rfl]
      rw [ih]
      simp [bKeys]
      tauto

/-- Pointwise value of the bucket merge loop: with unique keys in the merged-in
map and no uint64 overflow per key, every key reads as the sum of the two
sides. -/
theorem bucketsAddFrom_get (other : List (GoFloat × Nat)) :
    ∀ h : BucketMap,
      (bKeys other).Nodup →
      (∀ k ∈ bKeys other, bGet h k + bGet other k < 2 ^ 64) →
      ∀ k, bGet (bucketsAddFrom h other) k = bGet h k + bGet other k := by
  induction other with
  | nil => intro h _ _ k; simp [bucketsAddFrom, bGet]
  | cons kv rest ih =>
    intro h hnodup hovf k
    obtain ⟨k0, v0⟩ := kv
    have hnodup2 : k0 ∉ List.map Prod.fst rest ∧ (List.map Prod.fst rest).Nodup := by
      simp only [bKeys, List.map_cons, List.nodup_cons] at hnodup
      exact hnodup
    have hk0rest : k0 ∉ bKeys rest := hnodup2.1
    have hnodup' : (bKeys rest).Nodup := hnodup2.2
    have hovf0 : bGet h k0 + v0 < 2 ^ 64 := by
      have := hovf k0 (by simp [bKeys])
      simpa [bGet] using this
    have hmod : (bGet h k0 + v0) % 2 ^ 64 = bGet h k0 + v0 := Nat.mod_eq_of_lt hovf0
    have hstep : bucketsAddFrom h ((k0, v0) :: rest)
        = bucketsAddFrom (bSet h k0 (bGet h k0 + v0)) rest := by
      simp only [bucketsAddFrom, List.foldl_cons]
      rw [hmod]
    rw [hstep]
    have hovf' : ∀ k ∈ bKeys rest, bGet (bSet h k0 (bGet h k0 + v0)) k + bGet rest k < 2 ^ 64 := by
      intro x hx
      have hxne : x ≠ k0 := fun hh => hk0rest (hh ▸ hx)
      rw [bGet_bSet_other _ _ _ _ hxne]
      have := hovf x (by
        simp only [bKeys, List.map_cons, List.mem_cons]
        exact Or.inr hx)
      have hbx : bGet ((k0, v0) :: rest) x = bGet rest x := by
        simp [bGet, Ne.symm hxne]
      rwa [hbx] at this
    rw [ih (bSet h k0 (bGet h k0 + v0)) hnodup' hovf' k]
    by_cases hk : k = k0
    · subst hk
      rw [bGet_bSet_same, bGet_eq_zero_of_not_mem rest k hk0rest]
      simp [bGet]
    · rw [bGet_bSet_other _ _ _ _ hk]
      simp [bGet, Ne.symm hk]

/-- Keys of the merged map are the union of both key sets. -/
theorem mem_bKeys_bucketsAddFrom (other : List (GoFloat × Nat)) :
    ∀ (h : BucketMap) (x : GoFloat),
      x ∈ bKeys (bucketsAddFrom h other) ↔ x ∈ bKeys h ∨ x ∈ bKeys other := by
  induction other with
  | nil => intro h x; simp [bucketsAddFrom, bKeys]
  | cons kv rest ih =>
    intro h x
    obtain ⟨k0, v0⟩ := kv
    have hstep : bucketsAddFrom h ((k0, v0) :: rest)
        = bucketsAddFrom (bSet h k0 ((bGet h k0 + v0) % 2 ^ 64)) rest := by
      simp [bucketsAddFrom]
    rw [hstep, ih, mem_bKeys_bSet]
    simp [bKeys]
    tauto

/-- **C2** (histogram merge rule).  When the histogram store receives an
incoming record whose counter key already has an entry with a strictly older
report time, the stored result is the merge: sums add, counts add, and every
bucket bound present in either side reads as the sum of both sides (absent
sides read as 0).  The uint64 hypotheses rule out 64-bit wrap-around. -/
theorem histogram_merge_rule
    (s : HistogramStore) (descriptorName : Str) (cur existing : HistogramMetric)
    (e : HistogramEntry)
    (hentry : s descriptorName = some e)
    (hex : e (toHistogramKey cur) = some existing)
    (hfresh : existing.reportTime < cur.reportTime)
    (hnodup : (bKeys existing.buckets).Nodup)
    (hcount : cur.count + existing.count < 2 ^ 64)
    (hovf : ∀ k ∈ bKeys existing.buckets,
      bGet cur.buckets k + bGet existing.buckets k < 2 ^ 64) :
    ∃ m : HistogramMetric,
      ((hStoreIncrement s descriptorName cur) descriptorName).getD emptyHistogramEntry
          (toHistogramKey cur) = some m ∧
      m.sum = existing.sum + cur.sum ∧
      m.count = existing.count + cur.count ∧
      ∀ b, b ∈ bKeys existing.buckets ∨ b ∈ bKeys cur.buckets →
        bGet m.buckets b = bGet existing.buckets b + bGet cur.buckets b ∧
        b ∈ bKeys m.buckets := by
  have hinc : histogramIncrement e cur
      = hEntrySet e (toHistogramKey cur) (MergeHistogram cur existing) := by
    unfold histogramIncrement
    rw [hex]
    exact if_pos hfresh
  refine ⟨MergeHistogram cur existing, ?_, ?_, ?_, ?_⟩
  · unfold hStoreIncrement
    rw [hentry]
    simp only [Option.getD_some, hStoreSet, if_pos rfl, hinc]
    simp [hEntrySet]
  · simp [MergeHistogram, add_comm]
  · simp only [MergeHistogram]
    rw [Nat.mod_eq_of_lt hcount]
    exact Nat.add_comm _ _
  · intro b hb
    constructor
    · simp only [MergeHistogram]
      rw [bucketsAddFrom_get existing.buckets cur.buckets hnodup hovf b]
      exact Nat.add_comm _ _
    · simp only [MergeHistogram]
      rw [mem_bKeys_bucketsAddFrom]
      tauto

/-- Witness for C2 at a concrete input (existing `{1↦2, 5↦5}`, incoming
`{1↦1, +∞↦3}`, strictly newer report time). -/
theorem histogram_merge_rule_witness :
    ∃ m : HistogramMetric,
      ((hStoreIncrement
          (hStoreSet (fun _ => none) [7]
            (hEntrySet emptyHistogramEntry
              (toHistogramKey ⟨[3], [], 9, 7, [(.val 1, 1), (.inf, 3)], [], 2, 0, 0⟩)
              ⟨[3], [], 4, 6, [(.val 1, 2), (.val 5, 5)], [], 1, 0, 0⟩))
          [7] ⟨[3], [], 9, 7, [(.val 1, 1), (.inf, 3)], [], 2, 0, 0⟩) [7]).getD
            emptyHistogramEntry
          (toHistogramKey ⟨[3], [], 9, 7, [(.val 1, 1), (.inf, 3)], [], 2, 0, 0⟩) = some m ∧
      m.sum = (4 : ℚ) + 9 ∧
      m.count = 6 + 7 ∧
      ∀ b, b ∈ bKeys [(.val 1, 2), (.val 5, 5)] ∨ b ∈ bKeys [(.val 1, 1), (.inf, 3)] →
        bGet m.buckets b
            = bGet [(.val 1, 2), (.val 5, 5)] b + bGet [(.val 1, 1), (.inf, 3)] b ∧
        b ∈ bKeys m.buckets := by
  exact histogram_merge_rule _ [7]
    ⟨[3], [], 9, 7, [(.val 1, 1), (.inf, 3)], [], 2, 0, 0⟩
    ⟨[3], [], 4, 6, [(.val 1, 2), (.val 5, 5)], [], 1, 0, 0⟩
    (hEntrySet emptyHistogramEntry
      (toHistogramKey ⟨[3], [], 9, 7, [(.val 1, 1), (.inf, 3)], [], 2, 0, 0⟩)
      ⟨[3], [], 4, 6, [(.val 1, 2), (.val 5, 5)], [], 1, 0, 0⟩)
    (by simp [hStoreSet])
    (by simp [hEntrySet])
    (by norm_num)
    (by decide)
    (by decide)
    (by intro k hk
        fin_cases hk <;> simp [bGet])

/-! ## collectors/descriptor_cache.go — `descriptorCache` -/

/-- `monitoring.MetricDescriptor`, reduced to the fields the cache stores. -/
structure MetricDescriptorM where
  name : Str
  descriptorType : Str
deriving DecidableEq

/-- `descriptorCacheEntry`. -/
structure DescriptorCacheEntry where
  data : List MetricDescriptorM
  expiry : ℤ
deriving DecidableEq

/-- The cache's internal map, iterated nowhere but keyed by the metric-type
prefix string; modelled as an association list with unique keys. -/
abbrev DescriptorCacheMap := List (Str × DescriptorCacheEntry)

/-- Go map read `d.cache[p]`. -/
def dcGet : DescriptorCacheMap → Str → Option DescriptorCacheEntry
  | [], _ => none
  | kv :: rest, p => if kv.1 = p then some kv.2 else dcGet rest p

/-- Go map write `d.cache[p] = e`. -/
def dcSet : DescriptorCacheMap → Str → DescriptorCacheEntry → DescriptorCacheMap
  | [], p, e => [(p, e)]
  | kv :: rest, p, e => if kv.1 = p then (p, e) :: rest else kv :: dcSet rest p e

/-- `descriptorCache.Lookup`: returns the data when the entry exists and
`time.Now().After(v.expiry)` is false, otherwise nil.  The pair's second
component is the cache map after the call: the function only reads the map. -/
def dcLookup (now : ℤ) (cache : DescriptorCacheMap) (p : Str) :
    Option (List MetricDescriptorM) × DescriptorCacheMap :=
  match dcGet cache p with
  | none => (none, cache)
  | some v => if v.expiry < now then (none, cache) else (some v.data, cache)

/-- `descriptorCache.Store`: overrides the entry with expiry `now + ttl`. -/
def dcStore (now ttl : ℤ) (cache : DescriptorCacheMap) (p : Str)
    (data : List MetricDescriptorM) : DescriptorCacheMap :=
  dcSet cache p ⟨data, now + ttl⟩

/-- **C7, counterexample.**  A cache holding a single entry for prefix `[1]`
that expired at time 5, looked up at time 6: the lookup returns absent, but
the expired entry is *still present* in the cache's internal map afterwards —
`Lookup` never deletes.  This refutes the claim that lookup "removes the
expired entry from the cache's internal map". -/
theorem descriptor_cache_lookup_keeps_expired_entry :
    (dcLookup 6 [([1], ⟨[⟨[2], [3]⟩], 5⟩)] [1]).1 = none ∧
    dcGet (dcLookup 6 [([1], ⟨[⟨[2], [3]⟩], 5⟩)] [1]).2 [1] = some ⟨[⟨[2], [3]⟩], 5⟩ := by
  constructor <;> rfl

/-- **C7, amended.**  Looking up a prefix whose entry has expired returns
absent and leaves the cache's internal map exactly as it was; the stale entry
is only ever replaced by a later `Store` on the same prefix. -/
theorem descriptor_cache_lookup_expired
    (now : ℤ) (cache : DescriptorCacheMap) (p : Str) (v : DescriptorCacheEntry)
    (hget : dcGet cache p = some v)
    (hexpired : v.expiry < now) :
    dcLookup now cache p = (none, cache) := by
  unfold dcLookup
  rw [hget]
  exact if_pos hexpired

/-- Witness for the amended C7 theorem at a concrete expired cache. -/
theorem descriptor_cache_lookup_expired_witness :
    dcLookup 6 [([1], ⟨[⟨[2], [3]⟩], 5⟩)] [1] = (none, [([1], ⟨[⟨[2], [3]⟩], 5⟩)]) := by
  exact descriptor_cache_lookup_expired 6 _ [1] ⟨[⟨[2], [3]⟩], 5⟩ (by rfl) (by norm_num)

/-! ## collectors/monitoring_collector.go — `Collect` and its self-metrics -/

/-- The collector's six self-metric registers, all labeled with `project_id`
(counters as naturals, gauges as rationals). -/
structure MonitoringMetrics where
  apiCallsTotal : Nat
  scrapesTotal : Nat
  scrapeErrorsTotal : Nat
  lastScrapeError : ℚ
  lastScrapeTimestamp : ℚ
  lastScrapeDurationSeconds : ℚ
deriving DecidableEq

/-- Names of the six self-metrics emitted by `Collect`. -/
inductive SelfMetric
  | scrapeErrorsTotal
  | apiCallsTotal
  | scrapesTotal
  | lastScrapeError
  | lastScrapeTimestamp
  | lastScrapeDuration
deriving DecidableEq

/-- `MonitoringCollector.Collect`.  `pipelineFailed` tells whether
`reportMonitoringMetrics` returned an error; `nowUnix` and `duration` are the
clock samples taken for the timestamp/duration gauges.  Returns the final
register state and the sequence of (metric, value) pairs sent to the channel,
in program order. -/
def collect (pipelineFailed : Bool) (nowUnix duration : ℚ) (s : MonitoringMetrics) :
    MonitoringMetrics × List (SelfMetric × ℚ) :=
  let errorMetric : ℚ := if pipelineFailed then 1 else 0
  let s1 :=
    if pipelineFailed then { s with scrapeErrorsTotal := s.scrapeErrorsTotal + 1 } else s
  let s2 := { s1 with scrapesTotal := s1.scrapesTotal + 1 }
  let s3 := { s2 with lastScrapeError := errorMetric }
  let s4 := { s3 with lastScrapeTimestamp := nowUnix }
  let s5 := { s4 with lastScrapeDurationSeconds := duration }
  (s5,
    [(.scrapeErrorsTotal, (s1.scrapeErrorsTotal : ℚ)),
     (.apiCallsTotal, (s1.apiCallsTotal : ℚ)),
     (.scrapesTotal, (s2.scrapesTotal : ℚ)),
     (.lastScrapeError, errorMetric),
     (.lastScrapeTimestamp, nowUnix),
     (.lastScrapeDuration, duration)])

/-- **C8** (self-metrics always emitted).  Whether or not the per-scrape
pipeline failed, `Collect` emits all six self-metrics, in program order;
`scrape_errors_total` is incremented exactly once when the pipeline failed and
left alone otherwise, and `last_scrape_error` is set (and emitted) as 1 on
failure and 0 on success. -/
theorem collect_always_emits_self_metrics
    (pipelineFailed : Bool) (nowUnix duration : ℚ) (s : MonitoringMetrics) :
    (collect pipelineFailed nowUnix duration s).2 =
      [(.scrapeErrorsTotal,
          ((s.scrapeErrorsTotal : ℚ) + if pipelineFailed then 1 else 0)),
       (.apiCallsTotal, (s.apiCallsTotal : ℚ)),
       (.scrapesTotal, ((s.scrapesTotal : ℚ) + 1)),
       (.lastScrapeError, if pipelineFailed then 1 else 0),
       (.lastScrapeTimestamp, nowUnix),
       (.lastScrapeDuration, duration)] ∧
    (collect pipelineFailed nowUnix duration s).1.scrapeErrorsTotal
      = s.scrapeErrorsTotal + (if pipelineFailed then 1 else 0) ∧
    (collect pipelineFailed nowUnix duration s).1.lastScrapeError
      = (if pipelineFailed then 1 else 0) := by
  cases pipelineFailed <;> simp [collect]

/-! ## stackdriver_exporter.go — metric-type prefix handling -/

/-- `slices.Sort`: ascending bytewise (lexicographic) sort of strings. -/
def sortStrings (l : List Str) : List Str := List.insertionSort (· ≤ ·) l

/-- `slices.Compact`: collapse every run of consecutive equal elements to a
single element. -/
def compactStrings : List Str → List Str
  | [] => []
  | [a] => [a]
  | a :: b :: rest =>
    if a = b then compactStrings (b :: rest) else a :: compactStrings (b :: rest)

/-- The main loop of `parseMetricTypePrefixes` after the first element has
been retained: drop each element that starts with the previously retained
element (`strings.HasPrefix(prefix, metricTypePrefixes[previousIndex])`),
otherwise retain it. -/
def dropSubPrefixed : Str → List Str → List Str
  | _, [] => []
  | last, p :: rest =>
    if last.isPrefixOf p then dropSubPrefixed last rest
    else p :: dropSubPrefixed p rest

/-- `parseMetricTypePrefixes`: sort, drop duplicates, then drop prefixes that
start with the previously retained prefix. -/
def parseMetricTypePrefixes (inputPrefixes : List Str) : List Str :=
  match compactStrings (sortStrings inputPrefixes) with
  | [] => []
  | p :: rest => p :: dropSubPrefixed p rest

/-- The inner loop of `handler.filterMetricTypePrefixes`: for every configured
prefix, keep each `collect` parameter value that starts with it
(`strings.HasPrefix(filter, prefix)` — and then it is `filter` that is
appended). -/
def collectFilteredPrefixes (metricsPrefixes filters : List Str) : List Str :=
  metricsPrefixes.flatMap (fun p => filters.filter (fun f => p.isPrefixOf f))

/-- `handler.filterMetricTypePrefixes`: when at least one `collect` filter is
present run the inner loop, then `parseMetricTypePrefixes` either way. -/
def filterMetricTypePrefixes (metricsPrefixes filters : List Str) : List Str :=
  parseMetricTypePrefixes
    (if filters.isEmpty then metricsPrefixes else collectFilteredPrefixes metricsPrefixes filters)

/-! ### Lemmas for C10 -/

/-- A prefix is lexicographically no greater than the whole string. -/
theorem le_of_isPre {a b : Str} (h : a <+: b) : a ≤ b := by
  obtain ⟨t, rfl⟩ := h
  induction a with
  | nil => exact List.nil_le
  | cons x a' ih => exact List.cons_le_cons x ih

/-- Between a string and any of its extensions, everything has the string as
a prefix: if `a ≤ b ≤ a ++ t`, then `a <+: b`. -/
theorem isPre_of_between (a : Str) :
    ∀ (b t : Str), a ≤ b → b ≤ a ++ t → a <+: b := by
  induction a with
  | nil => intro b t _ _; exact List.nil_prefix
  | cons x a' ih =>
    intro b t h1 h2
    rcases lt_or_eq_of_le h1 with h1' | h1'
    · cases b with
      | nil => exact absurd (h1' : List.Lex (· < ·) (x :: a') []) (List.Lex.not_nil_right _ _)
      | cons y b' =>
        rcases lt_or_eq_of_le h2 with h2' | h2'
        · have hlex1 : List.Lex (· < ·) (x :: a') (y :: b') := h1'
          cases hlex1 with
          | cons hab =>
            have hlex2 : List.Lex (· < ·) (x :: b') (x :: (a' ++ t)) := h2'
            cases hlex2 with
            | cons hba =>
              obtain ⟨u, hu⟩ := ih b' t (le_of_lt hab) (le_of_lt hba)
              exact ⟨u, by rw [List.cons_append, hu]⟩
            | rel hxx => exact absurd hxx (lt_irrefl x)
          | rel hxy =>
            have hlex2 : List.Lex (· < ·) (y :: b') (x :: (a' ++ t)) := h2'
            cases hlex2 with
            | cons hba => exact absurd hxy (lt_irrefl x)
            | rel hyx => exact absurd hxy (lt_asymm hyx)
        · rw [h2']
          exact List.prefix_append _ _
    · rw [← h1']

/-- Elements of `compactStrings l` come from `l`. -/
theorem mem_compactStrings : ∀ (l : List Str) (x : Str), x ∈ compactStrings l → x ∈ l := by
  intro l
  induction l with
  | nil => intro x hx; exact absurd hx (by simp [compactStrings])
  | cons a rest ih =>
    intro x hx
    cases rest with
    | nil => simpa [compactStrings] using hx
    | cons b rest' =>
      rw [compactStrings] at hx
      by_cases hab : a = b
      · rw [if_pos hab] at hx
        exact List.mem_cons_of_mem a (ih x hx)
      · rw [if_neg hab] at hx
        rcases List.mem_cons.mp hx with h | h
        · exact h ▸ List.mem_cons_self a _
        · exact List.mem_cons_of_mem a (ih x h)

/-- On a `≤`-sorted list, `compactStrings` yields a strictly sorted list. -/
theorem compactStrings_sorted :
    ∀ l : List Str, List.Sorted (· ≤ ·) l → List.Sorted (· < ·) (compactStrings l) := by
  intro l
  induction l with
  | nil => intro _; simp [compactStrings]
  | cons a rest ih =>
    intro hs
    cases rest with
    | nil => simp [compactStrings]
    | cons b rest' =>
      rw [compactStrings]
      have hstail : List.Sorted (· ≤ ·) (b :: rest') := hs.of_cons
      by_cases hab : a = b
      · rw [if_pos hab]
        exact ih hstail
      · rw [if_neg hab]
        refine List.Pairwise.cons ?_ (ih hstail)
        intro x hx
        have hxmem : x ∈ b :: rest' := mem_compactStrings _ x hx
        have hax : a ≤ x := (List.sorted_cons.mp hs).1 x hxmem
        rcases lt_or_eq_of_le hax with h | h
        · exact h
        · exfalso
          apply hab
          have hab' : a ≤ b := (List.sorted_cons.mp hs).1 b (List.mem_cons_self b rest')
          have hbx : b ≤ x := by
            rcases List.mem_cons.mp hxmem with hxb | hxr
            · exact le_of_eq hxb.symm
            · exact (List.sorted_cons.mp hstail).1 x hxr
          exact le_antisymm hab' (hbx.trans (le_of_eq h.symm))


theorem dropSubPrefixed_sublist :
    ∀ (l : List Str) (last : Str), (dropSubPrefixed last l).Sublist l := by
  intro l
  induction l with
  | nil => intro last; simp [dropSubPrefixed]
  | cons p rest ih =>
    intro last
    rw [dropSubPrefixed]
    by_cases h : last.isPrefixOf p = true
    · rw [if_pos h]
      exact (ih last).trans (List.sublist_cons_self p rest)
    · rw [if_neg h]
      exact List.Sublist.cons₂ p (ih p)

theorem dropSubPrefixed_prefixFree :
    ∀ (l : List Str) (last : Str), List.Sorted (· < ·) (last :: l) →
      List.Pairwise (fun a b => ¬ a <+: b) (last :: dropSubPrefixed last l) := by
  intro l
  induction l with
  | nil => intro last _; simp [dropSubPrefixed]
  | cons p rest ih =>
    intro last hs
    rw [dropSubPrefixed]
    by_cases h : last.isPrefixOf p = true
    · rw [if_pos h]
      refine ih last ?_
      exact List.Pairwise.sublist
        (List.Sublist.cons₂ last (List.sublist_cons_self p rest)) hs
    · rw [if_neg h]
      have hs1 : List.Sorted (· < ·) (p :: rest) := hs.of_cons
      have hlastall : ∀ x ∈ p :: rest, last < x := (List.sorted_cons.mp hs).1
      refine List.Pairwise.cons ?_ (ih p hs1)
      intro x hx
      rcases List.mem_cons.mp hx with rfl | hx'
      · intro hpre
        exact h ((List.isPrefixOf_iff_prefix).mpr hpre)
      · have hxrest : x ∈ rest := (dropSubPrefixed_sublist rest p).subset hx'
        intro hpre
        obtain ⟨t, ht⟩ := hpre
        have hlp : last ≤ p := le_of_lt (hlastall p (List.mem_cons_self p rest))
        have hpx : p ≤ last ++ t := by
          rw [ht]
          exact le_of_lt ((List.sorted_cons.mp hs1).1 x hxrest)
        exact h ((List.isPrefixOf_iff_prefix).mpr (isPre_of_between last p t hlp hpx))

/-- **C10** (effective prefix list).  `parseMetricTypePrefixes` returns a
sorted, duplicate-free list in which no element has another element as a
proper prefix, and any input prefix that properly starts with a retained
prefix is absent from the result (so it is dropped before any descriptors
are queried). -/
theorem parseMetricTypePrefixes_spec (inputPrefixes : List Str) :
    List.Sorted (· ≤ ·) (parseMetricTypePrefixes inputPrefixes) ∧
    (parseMetricTypePrefixes inputPrefixes).Nodup ∧
    (∀ a ∈ parseMetricTypePrefixes inputPrefixes,
      ∀ b ∈ parseMetricTypePrefixes inputPrefixes, a ≠ b → ¬ a <+: b) ∧
    (∀ x ∈ inputPrefixes, ∀ r ∈ parseMetricTypePrefixes inputPrefixes,
      r <+: x → x ≠ r → x ∉ parseMetricTypePrefixes inputPrefixes) := by
  have hsorted : List.Sorted (· ≤ ·) (sortStrings inputPrefixes) :=
    List.sorted_insertionSort _ _
  have hstrict : List.Sorted (· < ·) (compactStrings (sortStrings inputPrefixes)) :=
    compactStrings_sorted _ hsorted
  cases hc : compactStrings (sortStrings inputPrefixes) with
  | nil =>
    have hrepr : parseMetricTypePrefixes inputPrefixes = [] := by
      unfold parseMetricTypePrefixes
      rw [hc]
    rw [hrepr]
    simp
  | cons p rest =>
    have hrepr : parseMetricTypePrefixes inputPrefixes = p :: dropSubPrefixed p rest := by
      unfold parseMetricTypePrefixes
      rw [hc]
    rw [hc] at hstrict
    rw [hrepr]
    have hsubl : (p :: dropSubPrefixed p rest).Sublist (p :: rest) :=
      List.Sublist.cons₂ p (dropSubPrefixed_sublist rest p)
    have houtlt : List.Sorted (· < ·) (p :: dropSubPrefixed p rest) :=
      List.Pairwise.sublist hsubl hstrict
    have houtle : List.Sorted (· ≤ ·) (p :: dropSubPrefixed p rest) :=
      houtlt.imp le_of_lt
    have hnodup : (p :: dropSubPrefixed p rest).Nodup :=
      houtlt.imp ne_of_lt
    have hpf : List.Pairwise (fun a b => ¬ a <+: b) (p :: dropSubPrefixed p rest) :=
      dropSubPrefixed_prefixFree rest p hstrict
    have hrev : List.Pairwise (fun a b => ¬ b <+: a) (p :: dropSubPrefixed p rest) :=
      houtlt.imp (fun hab hpre => absurd (le_of_isPre hpre) (not_le.mpr hab))
    have hboth := hpf.and hrev
    have hsym : Symmetric (fun a b : Str => ¬ a <+: b ∧ ¬ b <+: a) :=
      fun _ _ hh => ⟨hh.2, hh.1⟩
    have hforall := hboth.forall hsym
    refine ⟨houtle, hnodup, ?_, ?_⟩
    · intro a ha b hb hne
      exact (hforall ha hb hne).1
    · intro x _ r hr hpre hne hxout
      exact (hforall hr hxout (Ne.symm hne)).1 hpre

/-- **C4, counterexample.**  Configured prefix `[1,2]` and collect value
`[1]`: the collect value is a proper prefix of the configured prefix
(`P.startsWith(C)` in the claim's terms), so the claim admits the prefix for
the scrape, using the longer string `[1,2]`.  The code admits nothing: it
only keeps collect values that start with a configured prefix, so the
scrape's prefix list comes out empty. -/
theorem collect_filter_drops_shorter_collect_value :
    ([1] : Str) <+: [1, 2] ∧
    filterMetricTypePrefixes [[1, 2]] [[1]] = [] := by
  exact ⟨by decide, rfl⟩

/-- **C4, amended.**  With a non-empty collect filter set, a string is
admitted by the filter loop exactly when it is one of the collect values and
some configured prefix is a prefix of it (`C.startsWith(P)`); the admitted
string is the collect value `C` itself — the more specific of the two — and
the prefixes actually used for the scrape are `parseMetricTypePrefixes` of
the admitted values.  Configured prefixes that only relate to a collect value
by `P.startsWith(C)` with `P ≠ C` are dropped. -/
theorem collect_filter_admits_iff (metricsPrefixes filters : List Str) (x : Str)
    (hne : filters ≠ []) :
    (x ∈ collectFilteredPrefixes metricsPrefixes filters ↔
        x ∈ filters ∧ ∃ p ∈ metricsPrefixes, p <+: x) ∧
    filterMetricTypePrefixes metricsPrefixes filters
      = parseMetricTypePrefixes (collectFilteredPrefixes metricsPrefixes filters) := by
  constructor
  · unfold collectFilteredPrefixes
    rw [List.mem_flatMap]
    constructor
    · rintro ⟨p, hp, hx⟩
      rw [List.mem_filter] at hx
      exact ⟨hx.1, p, hp, (List.isPrefixOf_iff_prefix).mp hx.2⟩
    · rintro ⟨hxf, p, hp, hpre⟩
      exact ⟨p, hp, List.mem_filter.mpr ⟨hxf, (List.isPrefixOf_iff_prefix).mpr hpre⟩⟩
  · unfold filterMetricTypePrefixes
    rw [if_neg (by simp [hne])]

/-- Witness for the amended C4 theorem: configured prefix `[1]`, collect
value `[1,2,3]`. -/
theorem collect_filter_admits_iff_witness :
    (([1, 2, 3] : Str) ∈ collectFilteredPrefixes [[1]] [[1, 2, 3]] ↔
        ([1, 2, 3] : Str) ∈ ([[1, 2, 3]] : List Str) ∧
        ∃ p ∈ ([[1]] : List Str), p <+: [1, 2, 3]) ∧
    filterMetricTypePrefixes [[1]] [[1, 2, 3]]
      = parseMetricTypePrefixes (collectFilteredPrefixes [[1]] [[1, 2, 3]]) := by
  exact collect_filter_admits_iff [[1]] [[1, 2, 3]] [1, 2, 3] (by decide)

/-! ## collectors/monitoring_collector.go — `generateHistogramBuckets`

The distribution's `BucketOptions` oneof; `NumFiniteBuckets` is taken through
`int(...)`, and the model covers the non-negative values (a negative count
would make the Go `make` calls degenerate or panic before any bucket logic
runs). -/

inductive BucketOptions
  | explicitBounds (bounds : List ℚ)
  | linear (numFiniteBuckets : ℤ) (width offset : ℚ)
  | exponential (numFiniteBuckets : ℤ) (growthFactor scale : ℚ)
deriving DecidableEq

/-- `distribution.Distribution`, reduced to the fields the bucketizer reads.
`bucketOptions = none` models an unset/unknown oneof (the `default` branch). -/
structure Distribution where
  count : ℤ
  mean : ℚ
  bucketCounts : List ℤ
  bucketOptions : Option BucketOptions
deriving DecidableEq

/-- `uint64(x)` for an `int64` value: two's-complement reinterpretation. -/
def toUint64 (x : ℤ) : Nat := (x % 2 ^ 64).toNat

/-- The `bucketKeys` slice: the finite bounds of the chosen layout followed by
the `+Inf` overwrite of the last slot. -/
def bucketKeysOf : BucketOptions → List GoFloat
  | .explicitBounds bounds => bounds.map GoFloat.val ++ [GoFloat.inf]
  | .linear num width offset =>
    ((List.range (num.toNat + 1)).map fun i : ℕ => GoFloat.val (offset + (i : ℚ) * width))
      ++ [GoFloat.inf]
  | .exponential num growthFactor scale =>
    ((List.range (num.toNat + 1)).map fun i : ℕ => GoFloat.val (scale * growthFactor ^ i))
      ++ [GoFloat.inf]

/-- Go map write into the `buckets` map. -/
def bmUpdate (m : GoFloat → Option Nat) (k : GoFloat) (v : Nat) : GoFloat → Option Nat :=
  fun k' => if k' = k then some v else m k'

/-- The cumulative loop `for i, b := range bucketKeys`: while counts remain
(`len(dist.BucketCounts) > i`), write `uint64(counts[i]) + last` (uint64
addition) and carry it; afterwards keep writing the carried value. -/
def cumulate (m : GoFloat → Option Nat) (last : Nat) :
    List GoFloat → List ℤ → (GoFloat → Option Nat)
  | [], _ => m
  | b :: bs, [] => cumulate (bmUpdate m b last) last bs []
  | b :: bs, c :: cs =>
    cumulate (bmUpdate m b ((toUint64 c + last) % 2 ^ 64)) ((toUint64 c + last) % 2 ^ 64) bs cs

/-- `MonitoringCollector.generateHistogramBuckets`: `none` models the
`"Unknown distribution buckets"` error. -/
def generateHistogramBuckets (dist : Distribution) : Option (GoFloat → Option Nat) :=
  match dist.bucketOptions with
  | none => none
  | some opts => some (cumulate (fun _ => none) 0 (bucketKeysOf opts) dist.bucketCounts)

/-- Strict order on bucket keys (`+Inf` above every finite value). -/
def gfLt : GoFloat → GoFloat → Prop
  | .val a, .val b => a < b
  | .val _, .inf => True
  | .inf, _ => False

instance : DecidableRel gfLt := fun a b =>
  match a, b with
  | .val x, .val y => inferInstanceAs (Decidable (x < y))
  | .val _, .inf => .isTrue trivial
  | .inf, _ => .isFalse id

instance : IsTrans GoFloat gfLt :=
  ⟨fun a b c hab hbc => by
    cases a <;> cases b <;> cases c <;> simp_all [gfLt]
    exact lt_trans hab hbc⟩

theorem gfLt_ne {a b : GoFloat} (h : gfLt a b) : a ≠ b := by
  cases a <;> cases b <;> simp_all [gfLt]
  exact ne_of_lt h

/-! ### Lemmas for C5 -/

/-- Keys not in the remaining key list are untouched by the loop. -/
theorem cumulate_not_mem (keys : List GoFloat) :
    ∀ (counts : List ℤ) (m : GoFloat → Option Nat) (last : Nat) (k : GoFloat),
      k ∉ keys → cumulate m last keys counts k = m k := by
  induction keys with
  | nil => intro counts m last k _; cases counts <;> rfl
  | cons b bs ih =>
    intro counts m last k hk
    have hkb : k ≠ b := fun h => hk (h ▸ List.mem_cons_self b bs)
    have hkbs : k ∉ bs := fun h => hk (List.mem_cons_of_mem b h)
    cases counts with
    | nil =>
      rw [cumulate, ih [] _ _ _ hkbs, bmUpdate, if_neg hkb]
    | cons c cs =>
      rw [cumulate, ih cs _ _ _ hkbs, bmUpdate, if_neg hkb]

/-- Every key in the list ends up present in the map. -/
theorem cumulate_isSome (keys : List GoFloat) :
    ∀ (counts : List ℤ) (m : GoFloat → Option Nat) (last : Nat) (k : GoFloat),
      k ∈ keys → (cumulate m last keys counts k).isSome := by
  induction keys with
  | nil => intro counts m last k hk; exact absurd hk (List.not_mem_nil k)
  | cons b bs ih =>
    intro counts m last k hk
    by_cases hkbs : k ∈ bs
    · cases counts with
      | nil => rw [cumulate]; exact ih [] _ _ _ hkbs
      | cons c cs => rw [cumulate]; exact ih cs _ _ _ hkbs
    · have hkb : k = b := by
        rcases List.mem_cons.mp hk with h | h
        · exact h
        · exact absurd h hkbs
      subst hkb
      cases counts with
      | nil =>
        rw [cumulate, cumulate_not_mem bs [] _ _ _ hkbs, bmUpdate, if_pos rfl]
        rfl
      | cons c cs =>
        rw [cumulate, cumulate_not_mem bs cs _ _ _ hkbs, bmUpdate, if_pos rfl]
        rfl

/-- The sequence of values written by the loop. -/
def cumValues (last : Nat) : List GoFloat → List ℤ → List Nat
  | [], _ => []
  | _ :: bs, [] => last :: cumValues last bs []
  | _ :: bs, c :: cs =>
    ((toUint64 c + last) % 2 ^ 64) :: cumValues ((toUint64 c + last) % 2 ^ 64) bs cs

/-- With distinct keys, reading the final map along the key list gives exactly
the written values. -/
theorem cumulate_map_get (keys : List GoFloat) :
    ∀ (counts : List ℤ) (m : GoFloat → Option Nat) (last : Nat),
      keys.Nodup →
      keys.map (fun b => (cumulate m last keys counts b).getD 0)
        = cumValues last keys counts := by
  induction keys with
  | nil => intro counts m last _; cases counts <;> rfl
  | cons b bs ih =>
    intro counts m last hnd
    have hbs : b ∉ bs := (List.nodup_cons.mp hnd).1
    have hnd' : bs.Nodup := (List.nodup_cons.mp hnd).2
    cases counts with
    | nil =>
      have hhead : (cumulate m last (b :: bs) [] b).getD 0 = last := by
        rw [cumulate, cumulate_not_mem bs [] _ _ _ hbs]
        simp [bmUpdate]
      have hmid : (b :: bs).map (fun x => (cumulate m last (b :: bs) [] x).getD 0)
          = (cumulate m last (b :: bs) [] b).getD 0
            :: bs.map (fun x => (cumulate (bmUpdate m b last) last bs [] x).getD 0) := by
        rw [List.map_cons]
        refine congrArg (List.cons _) (List.map_congr_left ?_)
        intro x _
        rw [cumulate]
      rw [hmid, hhead, cumValues]
      exact congrArg (List.cons last) (ih [] _ _ hnd')
    | cons c cs =>
      have hhead : (cumulate m last (b :: bs) (c :: cs) b).getD 0
          = (toUint64 c + last) % 2 ^ 64 := by
        rw [cumulate, cumulate_not_mem bs cs _ _ _ hbs]
        simp [bmUpdate]
      have hmid : (b :: bs).map (fun x => (cumulate m last (b :: bs) (c :: cs) x).getD 0)
          = (cumulate m last (b :: bs) (c :: cs) b).getD 0
            :: bs.map (fun x =>
                (cumulate (bmUpdate m b ((toUint64 c + last) % 2 ^ 64))
                  ((toUint64 c + last) % 2 ^ 64) bs cs x).getD 0) := by
        rw [List.map_cons]
        refine congrArg (List.cons _) (List.map_congr_left ?_)
        intro x _
        rw [cumulate]
      rw [hmid, hhead, cumValues]
      exact congrArg (List.cons _) (ih cs _ _ hnd')

/-- The written values never decrease (no 64-bit wrap under the size bound). -/
theorem cumValues_chain (keys : List GoFloat) :
    ∀ (counts : List ℤ) (last : Nat),
      last + (counts.map toUint64).sum < 2 ^ 64 →
      List.Chain' (· ≤ ·) (last :: cumValues last keys counts) := by
  induction keys with
  | nil => intro counts last _; cases counts <;> simp [cumValues]
  | cons b bs ih =>
    intro counts last hbound
    cases counts with
    | nil =>
      rw [cumValues]
      exact List.chain'_cons.mpr ⟨le_refl last, ih [] last (by simpa using hbound)⟩
    | cons c cs =>
      rw [cumValues]
      have hsums : last + (toUint64 c + (cs.map toUint64).sum) < 2 ^ 64 := by
        simpa [List.map_cons, List.sum_cons] using hbound
      have hstep : toUint64 c + last < 2 ^ 64 := by omega
      have hmod : (toUint64 c + last) % 2 ^ 64 = toUint64 c + last :=
        Nat.mod_eq_of_lt hstep
      rw [hmod]
      refine List.chain'_cons.mpr ⟨Nat.le_add_left last (toUint64 c), ?_⟩
      exact ih cs (toUint64 c + last) (by omega)

/-- The value stored at the last key is the total of all counts (the final
write is at the last key, so no other write can shadow it). -/
theorem cumulate_getLast (keys : List GoFloat) :
    ∀ (counts : List ℤ) (m : GoFloat → Option Nat) (last : Nat) (kl : GoFloat),
      keys.getLast? = some kl →
      counts.length ≤ keys.length →
      last + (counts.map toUint64).sum < 2 ^ 64 →
      cumulate m last keys counts kl = some (last + (counts.map toUint64).sum) := by
  induction keys with
  | nil => intro counts m last kl hkl _ _; exact absurd hkl (by simp)
  | cons b bs ih =>
    intro counts m last kl hkl hlen hbound
    cases bs with
    | nil =>
      have hklb : b = kl := by simpa using hkl
      subst hklb
      cases counts with
      | nil =>
        rw [cumulate, cumulate]
        simp [bmUpdate]
      | cons c cs =>
        have hcs : cs = [] := by
          rw [← List.length_eq_zero]
          simp only [List.length_cons, List.length_nil] at hlen
          omega
        subst hcs
        have hsum : (([c] : List ℤ).map toUint64).sum = toUint64 c := by simp
        have hstep : toUint64 c + last < 2 ^ 64 := by
          rw [hsum] at hbound
          omega
        have hbm : bmUpdate m b ((toUint64 c + last) % 2 ^ 64) b
            = some ((toUint64 c + last) % 2 ^ 64) := by
          simp [bmUpdate]
        rw [cumulate, cumulate, hbm, Nat.mod_eq_of_lt hstep, hsum]
        exact congrArg some (Nat.add_comm _ _)
    | cons b2 bs2 =>
      have hkl' : (b2 :: bs2).getLast? = some kl := by
        rw [List.getLast?_cons_cons] at hkl
        exact hkl
      cases counts with
      | nil =>
        rw [cumulate]
        exact ih [] (bmUpdate m b last) last kl hkl' (by simp) (by simpa using hbound)
      | cons c cs =>
        have hsums : last + (toUint64 c + (cs.map toUint64).sum) < 2 ^ 64 := by
          simpa [List.map_cons, List.sum_cons] using hbound
        have hstep : toUint64 c + last < 2 ^ 64 := by omega
        rw [cumulate, Nat.mod_eq_of_lt hstep]
        have hlen' : cs.length ≤ (b2 :: bs2).length := by
          simp only [List.length_cons] at hlen ⊢
          omega
        rw [ih cs (bmUpdate m b (toUint64 c + last)) (toUint64 c + last) kl hkl'
          hlen' (by omega)]
        refine congrArg some ?_
        simp only [List.map_cons, List.sum_cons]
        omega

/-- Any finite-bound list followed by the `+Inf` slot is a `gfLt`-chain as
soon as the finite bounds strictly increase. -/
theorem chain_val_append_inf (qs : List ℚ) (hq : List.Chain' (· < ·) qs) :
    List.Chain' gfLt (qs.map GoFloat.val ++ [GoFloat.inf]) := by
  rw [List.chain'_append]
  refine ⟨(List.chain'_map _).mpr ?_, by simp, ?_⟩
  · exact hq.imp (fun a b h => h)
  · intro x hx y hy
    simp only [List.head?_cons, Option.mem_def, Option.some.injEq] at hy
    subst hy
    have : x ∈ qs.map GoFloat.val := by
      cases hqs : qs.map GoFloat.val with
      | nil => rw [hqs] at hx; exact absurd hx (by simp)
      | cons z zs =>
        rw [hqs] at hx
        exact List.mem_of_mem_getLast? hx
    obtain ⟨q, _, rfl⟩ := List.mem_map.mp this
    exact trivial

/-- Explicit layout: strictly increasing bounds give a strictly increasing
key list. -/
theorem bucketKeys_chain_explicit (bounds : List ℚ)
    (hb : List.Chain' (· < ·) bounds) :
    List.Chain' gfLt (bucketKeysOf (.explicitBounds bounds)) :=
  chain_val_append_inf bounds hb

/-- Linear layout: positive width gives a strictly increasing key list. -/
theorem bucketKeys_chain_linear (num : ℤ) (width offset : ℚ) (hw : 0 < width) :
    List.Chain' gfLt (bucketKeysOf (.linear num width offset)) := by
  have hmono : ∀ m : ℕ, offset + (m : ℚ) * width < offset + (m.succ : ℚ) * width := by
    intro m
    have h1 : (m : ℚ) < (m.succ : ℚ) := by exact_mod_cast Nat.lt_succ_self m
    have h2 := mul_lt_mul_of_pos_right h1 hw
    linarith
  have hq : List.Chain' (· < ·)
      ((List.range (num.toNat + 1)).map fun i : ℕ => offset + (i : ℚ) * width) := by
    refine (List.chain'_map _).mpr ?_
    exact (List.chain'_range_succ _ num.toNat).mpr fun m _ => hmono m
  have : bucketKeysOf (.linear num width offset)
      = ((List.range (num.toNat + 1)).map fun i : ℕ => offset + (i : ℚ) * width).map
          GoFloat.val ++ [GoFloat.inf] := by
    simp [bucketKeysOf, List.map_map, Function.comp]
  rw [this]
  exact chain_val_append_inf _ hq

/-- Exponential layout: positive scale and growth factor above 1 give a
strictly increasing key list. -/
theorem bucketKeys_chain_exponential (num : ℤ) (growthFactor scale : ℚ)
    (hg : 1 < growthFactor) (hs : 0 < scale) :
    List.Chain' gfLt (bucketKeysOf (.exponential num growthFactor scale)) := by
  have hq : List.Chain' (· < ·)
      ((List.range (num.toNat + 1)).map fun i : ℕ => scale * growthFactor ^ i) := by
    refine (List.chain'_map _).mpr ?_
    exact (List.chain'_range_succ _ num.toNat).mpr fun m _ =>
      mul_lt_mul_of_pos_left (pow_lt_pow_right₀ hg (Nat.lt_succ_self m)) hs
  have : bucketKeysOf (.exponential num growthFactor scale)
      = ((List.range (num.toNat + 1)).map fun i : ℕ => scale * growthFactor ^ i).map
          GoFloat.val ++ [GoFloat.inf] := by
    simp [bucketKeysOf, List.map_map, Function.comp]
  rw [this]
  exact chain_val_append_inf _ hq

/-- **C5** (bucketizer cumulativity).  For a distribution with a recognized
bucket layout whose upper bounds strictly increase (as the explicit, linear
and exponential layouts produce — see the three `bucketKeys_chain` lemmas),
with at most one count per bucket slot and no 64-bit overflow, the produced
bucket map is cumulative: reading the map along the increasing key list gives
a non-decreasing sequence of values, every bound is present, and the value at
the `+Inf` bound is the total of all `bucketCounts`. -/
theorem bucketizer_cumulative (dist : Distribution) (opts : BucketOptions)
    (hopts : dist.bucketOptions = some opts)
    (hchain : List.Chain' gfLt (bucketKeysOf opts))
    (hlen : dist.bucketCounts.length ≤ (bucketKeysOf opts).length)
    (hbound : (dist.bucketCounts.map toUint64).sum < 2 ^ 64) :
    ∃ m : GoFloat → Option Nat,
      generateHistogramBuckets dist = some m ∧
      List.Chain' (· ≤ ·) ((bucketKeysOf opts).map fun b => (m b).getD 0) ∧
      (∀ b ∈ bucketKeysOf opts, (m b).isSome) ∧
      m GoFloat.inf = some ((dist.bucketCounts.map toUint64).sum) := by
  have hnodup : (bucketKeysOf opts).Nodup :=
    ((List.chain'_iff_pairwise).mp hchain).imp gfLt_ne
  refine ⟨cumulate (fun _ => none) 0 (bucketKeysOf opts) dist.bucketCounts, ?_, ?_, ?_, ?_⟩
  · unfold generateHistogramBuckets
    rw [hopts]
  · rw [cumulate_map_get _ _ _ _ hnodup]
    exact (cumValues_chain _ _ 0 (by simpa using hbound)).tail
  · intro b hb
    exact cumulate_isSome _ _ _ _ _ hb
  · have hlast : (bucketKeysOf opts).getLast? = some GoFloat.inf := by
      cases opts <;> simp [bucketKeysOf]
    have := cumulate_getLast (bucketKeysOf opts) dist.bucketCounts (fun _ => none) 0
      GoFloat.inf hlast hlen (by simpa using hbound)
    simpa using this

/-- Witness for C5 at the spec's boundary example B1: explicit bounds
`[1, 5, 10]`, counts `[2, 3, 0, 1]`. -/
theorem bucketizer_cumulative_witness :
    ∃ m : GoFloat → Option Nat,
      generateHistogramBuckets ⟨6, 2, [2, 3, 0, 1], some (.explicitBounds [1, 5, 10])⟩
          = some m ∧
      List.Chain' (· ≤ ·)
        ((bucketKeysOf (.explicitBounds [1, 5, 10])).map fun b => (m b).getD 0) ∧
      (∀ b ∈ bucketKeysOf (.explicitBounds [1, 5, 10]), (m b).isSome) ∧
      m GoFloat.inf = some ((([2, 3, 0, 1] : List ℤ).map toUint64).sum) := by
  exact bucketizer_cumulative ⟨6, 2, [2, 3, 0, 1], some (.explicitBounds [1, 5, 10])⟩
    (.explicitBounds [1, 5, 10]) rfl
    (bucketKeys_chain_explicit [1, 5, 10] (by norm_num [List.chain'_cons]))
    (by simp [bucketKeysOf])
    (by decide)

/-! ## delta/counter.go — `ListMetrics` and histogram-bucket aliasing

A Go struct copy `metricCopy := *collected` copies every field by value, but a
field of map type (`Buckets map[float64]uint64`) is a reference: the copy and
the original then share one underlying map.  To make that sharing observable
in the embedding, the histogram record carries an index (`bucketsRef`) into an
explicit heap of bucket maps. -/

/-- Heap of live Go bucket maps: reference → current contents. -/
abbrev BucketHeap := Nat → BucketMap

/-- Replace the map behind a reference (what a write such as
`r.Buckets[k] = v` does to the heap, up to the single-entry change). -/
def heapUpdate (h : BucketHeap) (r : Nat) (mp : BucketMap) : BucketHeap :=
  fun r' => if r' = r then mp else h r'

/-- `collectors.HistogramMetric` with its `Buckets` field as a heap
reference. -/
structure HistogramMetricRef where
  fqName : Str
  labelKeys : List Str
  sum : ℚ
  count : Nat
  bucketsRef : Nat
  labelValues : List Str
  reportTime : ℤ
  collectionTime : ℤ
  keysHash : Nat
deriving DecidableEq

/-- The struct copy `metricCopy := *collected`: every field is copied,
including the `Buckets` *reference* — not the referenced map. -/
def shallowCopy (m : HistogramMetricRef) : HistogramMetricRef :=
  { fqName := m.fqName, labelKeys := m.labelKeys, sum := m.sum, count := m.count,
    bucketsRef := m.bucketsRef, labelValues := m.labelValues,
    reportTime := m.reportTime, collectionTime := m.collectionTime,
    keysHash := m.keysHash }

/-- `InMemoryHistogramStore.ListMetrics` on one descriptor's `Collected` map,
given as its entry list: evict every entry with
`ttlWindowStart.After(collected.CollectionTime)`, output a struct copy of each
surviving entry.  Result: (map contents after eviction, output slice). -/
def listMetricsHist (ttlWindowStart : ℤ) :
    List (Nat × HistogramMetricRef) →
      List (Nat × HistogramMetricRef) × List HistogramMetricRef
  | [] => ([], [])
  | e :: rest =>
    let p := listMetricsHist ttlWindowStart rest
    if e.2.collectionTime < ttlWindowStart then p
    else (e :: p.1, shallowCopy e.2 :: p.2)

/-- `InMemoryCounterStore.ListMetrics` on one descriptor's `Collected` map:
same shape, but `ConstMetric` has no map-typed field, so the struct copy *is*
the full record value. -/
def listMetricsCounter (ttlWindowStart : ℤ) :
    List (Nat × ConstMetric) → List (Nat × ConstMetric) × List ConstMetric
  | [] => ([], [])
  | e :: rest =>
    let p := listMetricsCounter ttlWindowStart rest
    if e.2.collectionTime < ttlWindowStart then p
    else (e :: p.1, e.2 :: p.2)

/-- **C6, counterexample.**  One fresh histogram entry (collection time 10,
TTL window start 0, buckets reference 0 pointing at `{1 ↦ 2}`).  `ListMetrics`
returns its struct copy, whose `bucketsRef` is the *same* reference as the
stored entry's; writing `buckets[1] = 99` through the returned record
(updating the heap at its reference) therefore changes what the stored
entry's buckets dereference to.  This refutes the claim that mutating a
returned histogram's buckets mapping leaves the stored entry unchanged. -/
theorem list_metrics_histogram_shares_buckets :
    (listMetricsHist 0 [(5, ⟨[3], [], 4, 6, 0, [], 1, 10, 0⟩)]).2
        = [shallowCopy ⟨[3], [], 4, 6, 0, [], 1, 10, 0⟩] ∧
    (shallowCopy (⟨[3], [], 4, 6, 0, [], 1, 10, 0⟩ : HistogramMetricRef)).bucketsRef
        = (⟨[3], [], 4, 6, 0, [], 1, 10, 0⟩ : HistogramMetricRef).bucketsRef ∧
    heapUpdate (fun _ => [(GoFloat.val 1, 2)])
        (shallowCopy (⟨[3], [], 4, 6, 0, [], 1, 10, 0⟩ : HistogramMetricRef)).bucketsRef
        (bSet [(GoFloat.val 1, 2)] (GoFloat.val 1) 99)
        (⟨[3], [], 4, 6, 0, [], 1, 10, 0⟩ : HistogramMetricRef).bucketsRef
      ≠ (fun _ => [(GoFloat.val 1, 2)] : BucketHeap)
        (⟨[3], [], 4, 6, 0, [], 1, 10, 0⟩ : HistogramMetricRef).bucketsRef := by
  refine ⟨rfl, rfl, ?_⟩
  decide

/-- **C6, amended.**  The records returned by `ListMetrics` are struct copies
of the surviving stored entries: reassigning a field of a returned record
cannot affect the store, and for the counter store the returned `ConstMetric`
records are simply the stored record values.  But each returned histogram
record shares its buckets map reference with its stored entry, so a write
through the returned record's buckets mapping is visible in the store. -/
theorem list_metrics_returns_shallow_copies (ttlWindowStart : ℤ)
    (entries : List (Nat × HistogramMetricRef))
    (centries : List (Nat × ConstMetric)) :
    (listMetricsHist ttlWindowStart entries).2
        = (listMetricsHist ttlWindowStart entries).1.map (fun e => shallowCopy e.2) ∧
    (∀ r ∈ (listMetricsHist ttlWindowStart entries).2,
      ∃ e ∈ (listMetricsHist ttlWindowStart entries).1,
        r = shallowCopy e.2 ∧ r.bucketsRef = e.2.bucketsRef ∧
        ∀ (h : BucketHeap) (mp : BucketMap),
          heapUpdate h r.bucketsRef mp e.2.bucketsRef = mp) ∧
    (listMetricsCounter ttlWindowStart centries).2
        = (listMetricsCounter ttlWindowStart centries).1.map (fun e => e.2) := by
  refine ⟨?_, ?_, ?_⟩
  · induction entries with
    | nil => rfl
    | cons e rest ih =>
      rw [listMetricsHist]
      by_cases hc : e.2.collectionTime < ttlWindowStart
      · simpa [hc] using ih
      · simpa [hc] using ih
  · intro r hr
    induction entries with
    | nil => exact absurd hr (by simp [listMetricsHist] at hr ⊢)
    | cons e rest ih =>
      rw [listMetricsHist] at hr ⊢
      by_cases hc : e.2.collectionTime < ttlWindowStart
      · simp only [hc, if_pos] at hr ⊢
        exact ih hr
      · simp only [hc, if_neg, not_false_iff] at hr ⊢
        rcases List.mem_cons.mp hr with hre | hre
        · refine ⟨e, List.mem_cons_self e _, hre, by rw [hre]; rfl, ?_⟩
          intro h mp
          rw [heapUpdate, hre]
          simp [shallowCopy]
        · obtain ⟨e', he', h1, h2, h3⟩ := ih hre
          exact ⟨e', List.mem_cons_of_mem e he', h1, h2, h3⟩
  · induction centries with
    | nil => rfl
    | cons e rest ih =>
      rw [listMetricsCounter]
      by_cases hc : e.2.collectionTime < ttlWindowStart
      · simpa [hc] using ih
      · simpa [hc] using ih

/-! ## utils/utils.go — `NormalizeMetricName`

`NormalizeMetricName` splits its input on camel-case boundaries
(`github.com/fatih/camelcase`), rewrites each word with
`safeNameRE = [^a-zA-Z0-9_]*$`, trims `_`, lowercases, trims spaces, drops
empty words and joins with `_`.  Because the regex is anchored at `$`, its
unique (leftmost) match in a word is the maximal *trailing* run of unsafe
characters — empty, at the very end, when the word ends in a safe character —
and only that run is replaced by a single `_`; unsafe characters elsewhere in
a word survive.

Characters are runes, modelled as naturals; the character classes, the case
mapping and the space set are the ASCII portions of the Unicode tables the Go
code consults (all inputs studied below are ASCII, where the two agree). -/

/- Runes (Unicode code points) are naturals. -/

/-- `unicode.IsLower`, ASCII part (`a`–`z`). -/
def isLowerRune (c : Nat) : Bool := 97 ≤ c && c ≤ 122

/-- `unicode.IsUpper`, ASCII part (`A`–`Z`). -/
def isUpperRune (c : Nat) : Bool := 65 ≤ c && c ≤ 90

/-- `unicode.IsDigit`, ASCII part (`0`–`9`). -/
def isDigitRune (c : Nat) : Bool := 48 ≤ c && c ≤ 57

/-- `unicode.IsSpace`, ASCII part (tab, newline, vertical tab, form feed,
carriage return, space). -/
def isSpaceRune (c : Nat) : Bool := c == 32 || (9 ≤ c && c ≤ 13)

/-- The `_` rune. -/
def underscoreRune : Nat := 95

/-- `unicode.ToLower`, ASCII part. -/
def toLowerRune (c : Nat) : Nat := if isUpperRune c then c + 32 else c

/-- A scraper-safe character: `[A-Za-z0-9_]`. -/
def isSafeRune (c : Nat) : Bool :=
  isLowerRune c || isUpperRune c || isDigitRune c || c == underscoreRune

/-- The four character classes `camelcase.Split` distinguishes. -/
inductive RuneClass
  | lower
  | upper
  | digit
  | other
deriving DecidableEq

/-- Class of a rune (the `switch` in `camelcase.Split`). -/
def classOf (c : Nat) : RuneClass :=
  if isLowerRune c then .lower
  else if isUpperRune c then .upper
  else if isDigitRune c then .digit
  else .other

/-- First pass of `camelcase.Split`: split into maximal runs of
equal-class runes (the Go loop appends left to right; this recursion produces
the same maximal-run decomposition). -/
def groupRuns : List Nat → List (List Nat)
  | [] => []
  | c :: rest =>
    match groupRuns rest with
    | [] => [[c]]
    | [] :: runs => [c] :: [] :: runs
    | (d :: run) :: runs =>
      if classOf c = classOf d then (c :: d :: run) :: runs
      else [c] :: (d :: run) :: runs

/-- Second pass of `camelcase.Split` over (current run, following runs): an
upper-case-headed run followed by a lower-case-headed run donates its last
rune to the lower run (`"PDFL","oader" → "PDF","Loader"`). -/
def adjustAux : List Nat → List (List Nat) → List (List Nat)
  | r1, [] => [r1]
  | r1, r2 :: rest =>
    if isUpperRune (r1.headD 0) && isLowerRune (r2.headD 0) then
      r1.dropLast :: adjustAux (r1.getLastD 0 :: r2) rest
    else
      r1 :: adjustAux r2 rest

/-- Second pass of `camelcase.Split`. -/
def adjustRuns : List (List Nat) → List (List Nat)
  | [] => []
  | r :: rest => adjustAux r rest

/-- `camelcase.Split` (ASCII model): group, adjust, keep non-empty words. -/
def camelSplit (s : List Nat) : List (List Nat) :=
  (adjustRuns (groupRuns s)).filter (fun r => !r.isEmpty)

/-- `safeNameRE.ReplaceAllLiteralString(word, "_")` for the anchored pattern
`[^a-zA-Z0-9_]*$`: drop the maximal unsafe suffix and append one `_`. -/
def replaceUnsafeTail (w : List Nat) : List Nat :=
  (w.reverse.dropWhile (fun c => !isSafeRune c)).reverse ++ [underscoreRune]

/-- `strings.Trim(w, "_")`. -/
def trimUnderscores (w : List Nat) : List Nat :=
  ((w.dropWhile (fun c => c == underscoreRune)).reverse.dropWhile
    (fun c => c == underscoreRune)).reverse

/-- `strings.TrimSpace(w)`. -/
def trimSpaces (w : List Nat) : List Nat :=
  ((w.dropWhile isSpaceRune).reverse.dropWhile isSpaceRune).reverse

/-- The body of `NormalizeMetricName`'s word loop:
`TrimSpace(ToLower(Trim(safeNameRE.ReplaceAllLiteralString(word, "_"), "_")))`. -/
def normalizeWord (w : List Nat) : List Nat :=
  trimSpaces ((trimUnderscores (replaceUnsafeTail w)).map toLowerRune)

/-- `strings.Join(words, "_")`. -/
def joinUnderscore : List (List Nat) → List Nat
  | [] => []
  | [w] => w
  | w :: ws => w ++ underscoreRune :: joinUnderscore ws

/-- The list of non-empty normalized words the loop accumulates. -/
def normalizeWords (s : List Nat) : List (List Nat) :=
  ((camelSplit s).map normalizeWord).filter (fun r => !r.isEmpty)

/-- `utils.NormalizeMetricName`. -/
def NormalizeMetricName (s : List Nat) : List Nat :=
  joinUnderscore (normalizeWords s)

/-- **C9, counterexample.**  For the input `"a_._"` (runes `[97,95,46,95]`)
the words are `"a"` and `"_._"`; the anchored regex leaves the inner `.`
intact while the guarding underscores are trimmed, so the output is `"a_."`.
Normalizing `"a_."` processes the word `"_."`, whose `.` is now a *trailing*
unsafe run: it is replaced and the word vanishes, leaving `"a"`.  So
`normalize` is not idempotent: `normalize(normalize("a_._")) = "a" ≠ "a_." =
normalize("a_._")`. -/
theorem normalize_not_idempotent :
    NormalizeMetricName (NormalizeMetricName [97, 95, 46, 95])
      ≠ NormalizeMetricName [97, 95, 46, 95] ∧
    NormalizeMetricName [97, 95, 46, 95] = [97, 95, 46] ∧
    NormalizeMetricName [97, 95, 46] = [97] := by
  refine ⟨?_, ?_, ?_⟩ <;> decide

/-! ### Rune-class facts (ASCII arithmetic) -/

theorem lower_of_classOf {c : Nat} (h : classOf c = .lower) : isLowerRune c = true := by
  unfold classOf at h
  split_ifs at h with h1 h2 h3
  simp_all

theorem upper_of_classOf {c : Nat} (h : classOf c = .upper) : isUpperRune c = true := by
  unfold classOf at h
  split_ifs at h with h1 h2 h3
  simp_all

theorem digit_of_classOf {c : Nat} (h : classOf c = .digit) : isDigitRune c = true := by
  unfold classOf at h
  split_ifs at h with h1 h2 h3
  simp_all

theorem classOf_other_flags {c : Nat} (h : classOf c = .other) :
    isLowerRune c = false ∧ isUpperRune c = false ∧ isDigitRune c = false := by
  by_cases h1 : isLowerRune c = true
  · rw [classOf, if_pos h1] at h
    exact absurd h (by simp)
  · by_cases h2 : isUpperRune c = true
    · rw [classOf, if_neg h1, if_pos h2] at h
      exact absurd h (by simp)
    · by_cases h3 : isDigitRune c = true
      · rw [classOf, if_neg h1, if_neg h2, if_pos h3] at h
        exact absurd h (by simp)
      · exact ⟨Bool.eq_false_iff.mpr h1, Bool.eq_false_iff.mpr h2, Bool.eq_false_iff.mpr h3⟩

theorem underscore_of_classOf_other {c : Nat} (h : classOf c = .other)
    (hsafe : isSafeRune c = true) : c = underscoreRune := by
  obtain ⟨h1, h2, h3⟩ := classOf_other_flags h
  simp only [isSafeRune, h1, h2, h3, Bool.false_or] at hsafe
  simpa [underscoreRune] using hsafe

theorem not_upper_of_lower {c : Nat} (h : isLowerRune c = true) : isUpperRune c = false := by
  rw [Bool.eq_false_iff]
  intro hu
  simp only [isLowerRune, Bool.and_eq_true, decide_eq_true_eq] at h
  simp only [isUpperRune, Bool.and_eq_true, decide_eq_true_eq] at hu
  omega

theorem not_upper_of_digit {c : Nat} (h : isDigitRune c = true) : isUpperRune c = false := by
  rw [Bool.eq_false_iff]
  intro hu
  simp only [isDigitRune, Bool.and_eq_true, decide_eq_true_eq] at h
  simp only [isUpperRune, Bool.and_eq_true, decide_eq_true_eq] at hu
  omega

theorem toLower_lower {c : Nat} (h : (isLowerRune c || isUpperRune c) = true) :
    isLowerRune (toLowerRune c) = true := by
  rcases Bool.or_eq_true_iff.mp h with h' | h'
  · rw [toLowerRune, if_neg (by rw [not_upper_of_lower h']; simp)]
    exact h'
  · rw [toLowerRune, if_pos h']
    simp only [isUpperRune, Bool.and_eq_true, decide_eq_true_eq] at h'
    simp only [isLowerRune, Bool.and_eq_true, decide_eq_true_eq]
    omega

theorem toLower_id_of_lower {c : Nat} (h : isLowerRune c = true) : toLowerRune c = c := by
  rw [toLowerRune, if_neg (by rw [not_upper_of_lower h]; simp)]

theorem toLower_id_of_digit {c : Nat} (h : isDigitRune c = true) : toLowerRune c = c := by
  rw [toLowerRune, if_neg (by rw [not_upper_of_digit h]; simp)]

theorem letter_ne_underscore {c : Nat} (h : (isLowerRune c || isUpperRune c) = true) :
    (c == underscoreRune) = false := by
  rw [Bool.eq_false_iff]
  intro hb
  have hc : c = underscoreRune := by simpa using hb
  subst hc
  rcases Bool.or_eq_true_iff.mp h with h' | h' <;> simp [isLowerRune, isUpperRune] at h' <;>
    revert h' <;> decide

theorem digit_ne_underscore {c : Nat} (h : isDigitRune c = true) :
    (c == underscoreRune) = false := by
  rw [Bool.eq_false_iff]
  intro hb
  have hc : c = underscoreRune := by simpa using hb
  subst hc
  revert h
  decide

theorem letter_not_space {c : Nat} (h : (isLowerRune c || isUpperRune c) = true) :
    isSpaceRune c = false := by
  rw [Bool.eq_false_iff]
  intro hs
  simp only [isSpaceRune, Bool.or_eq_true, Bool.and_eq_true, decide_eq_true_eq,
    beq_iff_eq] at hs
  rcases Bool.or_eq_true_iff.mp h with h' | h' <;>
    simp only [isLowerRune, isUpperRune, Bool.and_eq_true, decide_eq_true_eq] at h' <;>
    omega

theorem digit_not_space {c : Nat} (h : isDigitRune c = true) : isSpaceRune c = false := by
  rw [Bool.eq_false_iff]
  intro hs
  simp only [isSpaceRune, Bool.or_eq_true, Bool.and_eq_true, decide_eq_true_eq,
    beq_iff_eq] at hs
  simp only [isDigitRune, Bool.and_eq_true, decide_eq_true_eq] at h
  omega

theorem letter_safe {c : Nat} (h : (isLowerRune c || isUpperRune c) = true) :
    isSafeRune c = true := by
  rcases Bool.or_eq_true_iff.mp h with h' | h' <;> simp [isSafeRune, h']

theorem digit_safe {c : Nat} (h : isDigitRune c = true) : isSafeRune c = true := by
  simp [isSafeRune, h]

/-! ### `groupRuns` facts -/

theorem groupRuns_cons_nil (c : Nat) (rest : List Nat) (hgr : groupRuns rest = []) :
    groupRuns (c :: rest) = [[c]] := by
  rw [groupRuns, hgr]

theorem groupRuns_cons_nilrun (c : Nat) (rest : List Nat) (runs : List (List Nat))
    (hgr : groupRuns rest = [] :: runs) :
    groupRuns (c :: rest) = [c] :: [] :: runs := by
  rw [groupRuns, hgr]

theorem groupRuns_cons_same (c d : Nat) (rest run : List Nat) (runs : List (List Nat))
    (hgr : groupRuns rest = (d :: run) :: runs) (hcd : classOf c = classOf d) :
    groupRuns (c :: rest) = (c :: d :: run) :: runs := by
  rw [groupRuns, hgr]
  exact if_pos hcd

theorem groupRuns_cons_new (c d : Nat) (rest run : List Nat) (runs : List (List Nat))
    (hgr : groupRuns rest = (d :: run) :: runs) (hcd : classOf c ≠ classOf d) :
    groupRuns (c :: rest) = [c] :: (d :: run) :: runs := by
  rw [groupRuns, hgr]
  exact if_neg hcd

theorem groupRuns_cons_head (c : Nat) (rest : List Nat) :
    ∃ run runs, groupRuns (c :: rest) = (c :: run) :: runs := by
  cases hgr : groupRuns rest with
  | nil => exact ⟨[], [], groupRuns_cons_nil c rest hgr⟩
  | cons r runs =>
    cases r with
    | nil => exact ⟨[], [] :: runs, groupRuns_cons_nilrun c rest runs hgr⟩
    | cons d run =>
      by_cases hcd : classOf c = classOf d
      · exact ⟨d :: run, runs, groupRuns_cons_same c d rest run runs hgr hcd⟩
      · exact ⟨[], (d :: run) :: runs, groupRuns_cons_new c d rest run runs hgr hcd⟩

/-- Every run produced by `groupRuns` is single-class. -/
theorem groupRuns_singleClass :
    ∀ (s : List Nat), ∀ r ∈ groupRuns s, ∃ cl, ∀ c ∈ r, classOf c = cl := by
  intro s
  induction s with
  | nil => intro r hr; exact absurd hr (by simp [groupRuns])
  | cons c rest ih =>
    intro r hr
    cases hgr : groupRuns rest with
    | nil =>
      rw [groupRuns_cons_nil c rest hgr] at hr
      rcases List.mem_singleton.mp hr with rfl
      exact ⟨classOf c, by simp⟩
    | cons r0 runs =>
      cases r0 with
      | nil =>
        rw [groupRuns_cons_nilrun c rest runs hgr] at hr
        rcases List.mem_cons.mp hr with rfl | hr'
        · exact ⟨classOf c, by simp⟩
        · exact ih r (hgr ▸ hr')
      | cons d run =>
        by_cases hcd : classOf c = classOf d
        · rw [groupRuns_cons_same c d rest run runs hgr hcd] at hr
          rcases List.mem_cons.mp hr with rfl | hr'
          · obtain ⟨cl, hcl⟩ := ih (d :: run) (hgr ▸ List.mem_cons_self _ _)
            refine ⟨cl, ?_⟩
            intro x hx
            rcases List.mem_cons.mp hx with rfl | hx'
            · rw [hcd]
              exact hcl d (List.mem_cons_self d run)
            · exact hcl x hx'
          · exact ih r (hgr ▸ List.mem_cons_of_mem _ hr')
        · rw [groupRuns_cons_new c d rest run runs hgr hcd] at hr
          rcases List.mem_cons.mp hr with rfl | hr'
          · exact ⟨classOf c, by simp⟩
          · exact ih r (hgr ▸ hr')

/-- Every rune in a `groupRuns` run comes from the input. -/
theorem groupRuns_mem_subset :
    ∀ (s : List Nat), ∀ r ∈ groupRuns s, ∀ c ∈ r, c ∈ s := by
  intro s
  induction s with
  | nil => intro r hr; exact absurd hr (by simp [groupRuns])
  | cons c rest ih =>
    intro r hr x hx
    cases hgr : groupRuns rest with
    | nil =>
      rw [groupRuns_cons_nil c rest hgr] at hr
      rcases List.mem_singleton.mp hr with rfl
      rcases List.mem_singleton.mp hx with rfl
      exact List.mem_cons_self x rest
    | cons r0 runs =>
      cases r0 with
      | nil =>
        rw [groupRuns_cons_nilrun c rest runs hgr] at hr
        rcases List.mem_cons.mp hr with rfl | hr'
        · rcases List.mem_singleton.mp hx with rfl
          exact List.mem_cons_self x rest
        · exact List.mem_cons_of_mem c (ih r (hgr ▸ hr') x hx)
      | cons d run =>
        by_cases hcd : classOf c = classOf d
        · rw [groupRuns_cons_same c d rest run runs hgr hcd] at hr
          rcases List.mem_cons.mp hr with rfl | hr'
          · rcases List.mem_cons.mp hx with rfl | hx'
            · exact List.mem_cons_self x rest
            · exact List.mem_cons_of_mem c
                (ih (d :: run) (hgr ▸ List.mem_cons_self _ _) x hx')
          · exact List.mem_cons_of_mem c (ih r (hgr ▸ List.mem_cons_of_mem _ hr') x hx)
        · rw [groupRuns_cons_new c d rest run runs hgr hcd] at hr
          rcases List.mem_cons.mp hr with rfl | hr'
          · rcases List.mem_singleton.mp hx with rfl
            exact List.mem_cons_self x rest
          · exact List.mem_cons_of_mem c (ih r (hgr ▸ hr') x hx)

/-! ### The run invariant through `adjustRuns` -/

/-- Invariant satisfied by every run reaching the word loop on a safe input:
all letters, all digits, or all underscores. -/
def TriRun (r : List Nat) : Prop :=
  (∀ c ∈ r, (isLowerRune c || isUpperRune c) = true) ∨
  (∀ c ∈ r, isDigitRune c = true) ∨
  (∀ c ∈ r, c = underscoreRune)

theorem triRun_subset {r r' : List Nat} (hsub : ∀ c ∈ r', c ∈ r) (h : TriRun r) :
    TriRun r' := by
  rcases h with h | h | h
  · exact Or.inl fun c hc => h c (hsub c hc)
  · exact Or.inr (Or.inl fun c hc => h c (hsub c hc))
  · exact Or.inr (Or.inr fun c hc => h c (hsub c hc))

theorem headD_mem {l : List Nat} {d : Nat} (h : l ≠ []) : l.headD d ∈ l := by
  cases l with
  | nil => exact absurd rfl h
  | cons a t => exact List.mem_cons_self a t

theorem getLastD_mem {l : List Nat} {d : Nat} (h : l ≠ []) : l.getLastD d ∈ l := by
  cases l with
  | nil => exact absurd rfl h
  | cons a t =>
    rw [List.getLastD_cons]
    exact List.getLastD_mem_cons t a

theorem not_lower_of_digit {c : Nat} (h : isDigitRune c = true) : isLowerRune c = false := by
  rw [Bool.eq_false_iff]
  intro hl
  simp only [isDigitRune, Bool.and_eq_true, decide_eq_true_eq] at h
  simp only [isLowerRune, Bool.and_eq_true, decide_eq_true_eq] at hl
  omega

theorem adjustAux_triRun :
    ∀ (rest : List (List Nat)) (r1 : List Nat), TriRun r1 → (∀ r ∈ rest, TriRun r) →
      ∀ r' ∈ adjustAux r1 rest, TriRun r' := by
  intro rest
  induction rest with
  | nil =>
    intro r1 h1 _ r' hr'
    rw [adjustAux] at hr'
    rcases List.mem_singleton.mp hr' with rfl
    exact h1
  | cons r2 rest' ih =>
    intro r1 h1 hrest r' hr'
    rw [adjustAux] at hr'
    by_cases hcond : (isUpperRune (r1.headD 0) && isLowerRune (r2.headD 0)) = true
    · rw [if_pos hcond] at hr'
      obtain ⟨hup, hlo⟩ := Bool.and_eq_true_iff.mp hcond
      have h1ne : r1 ≠ [] := by
        intro h0
        rw [h0] at hup
        exact absurd hup (by decide)
      have h2ne : r2 ≠ [] := by
        intro h0
        rw [h0] at hlo
        exact absurd hlo (by decide)
      have h1letters : ∀ c ∈ r1, (isLowerRune c || isUpperRune c) = true := by
        rcases h1 with h | h | h
        · exact h
        · rw [not_upper_of_digit (h _ (headD_mem h1ne))] at hup
          exact absurd hup (by simp)
        · rw [h _ (headD_mem h1ne)] at hup
          exact absurd hup (by decide)
      have h2letters : ∀ c ∈ r2, (isLowerRune c || isUpperRune c) = true := by
        rcases hrest r2 (List.mem_cons_self r2 rest') with h | h | h
        · exact h
        · rw [not_lower_of_digit (h _ (headD_mem h2ne))] at hlo
          exact absurd hlo (by simp)
        · rw [h _ (headD_mem h2ne)] at hlo
          exact absurd hlo (by decide)
      rcases List.mem_cons.mp hr' with rfl | hr''
      · exact triRun_subset (fun c hc => (List.dropLast_sublist r1).subset hc) h1
      · refine ih (r1.getLastD 0 :: r2) (Or.inl ?_)
          (fun r hr => hrest r (List.mem_cons_of_mem r2 hr)) r' hr''
        intro c hc
        rcases List.mem_cons.mp hc with rfl | hc'
        · exact h1letters _ (getLastD_mem h1ne)
        · exact h2letters c hc'
    · rw [if_neg hcond] at hr'
      rcases List.mem_cons.mp hr' with rfl | hr''
      · exact h1
      · exact ih r2 (hrest r2 (List.mem_cons_self r2 rest'))
          (fun r hr => hrest r (List.mem_cons_of_mem r2 hr)) r' hr''

theorem adjustRuns_triRun (runs : List (List Nat)) (h : ∀ r ∈ runs, TriRun r) :
    ∀ r' ∈ adjustRuns runs, TriRun r' := by
  cases runs with
  | nil => intro r' hr'; exact absurd hr' (by simp [adjustRuns])
  | cons r rest =>
    intro r' hr'
    exact adjustAux_triRun rest r (h r (List.mem_cons_self r rest))
      (fun x hx => h x (List.mem_cons_of_mem r hx)) r' hr'

/-! ### `normalizeWord` on the three run shapes -/

theorem dropWhile_eq_self_of_all {p : Nat → Bool} {l : List Nat}
    (h : ∀ c ∈ l, p c = false) : l.dropWhile p = l := by
  cases l with
  | nil => rfl
  | cons a t =>
    rw [List.dropWhile_cons, if_neg]
    rw [h a (List.mem_cons_self a t)]
    simp

theorem dropWhile_eq_nil_of_all {p : Nat → Bool} :
    ∀ {l : List Nat}, (∀ c ∈ l, p c = true) → l.dropWhile p = [] := by
  intro l
  induction l with
  | nil => intro _; rfl
  | cons a t ih =>
    intro h
    rw [List.dropWhile_cons, if_pos (h a (List.mem_cons_self a t))]
    exact ih fun c hc => h c (List.mem_cons_of_mem a hc)

theorem trim_id_of_all {p : Nat → Bool} {w : List Nat} (h : ∀ c ∈ w, p c = false) :
    ((w.dropWhile p).reverse.dropWhile p).reverse = w := by
  rw [dropWhile_eq_self_of_all h,
    dropWhile_eq_self_of_all (fun c hc => h c (List.mem_reverse.mp hc)),
    List.reverse_reverse]

theorem trimSpaces_id_of_all {w : List Nat} (h : ∀ c ∈ w, isSpaceRune c = false) :
    trimSpaces w = w :=
  trim_id_of_all h

theorem replaceUnsafeTail_of_safe {w : List Nat} (h : ∀ c ∈ w, isSafeRune c = true) :
    replaceUnsafeTail w = w ++ [underscoreRune] := by
  unfold replaceUnsafeTail
  rw [dropWhile_eq_self_of_all
    (fun c hc => by rw [h c (List.mem_reverse.mp hc)]; simp), List.reverse_reverse]

theorem normalizeWord_underscores {w : List Nat} (h : ∀ c ∈ w, c = underscoreRune) :
    normalizeWord w = [] := by
  have h1 : replaceUnsafeTail w = w ++ [underscoreRune] :=
    replaceUnsafeTail_of_safe fun c hc => by rw [h c hc]; decide
  have h2 : trimUnderscores (w ++ [underscoreRune]) = [] := by
    have hin : (w ++ [underscoreRune]).dropWhile (fun c => c == underscoreRune) = [] := by
      refine dropWhile_eq_nil_of_all ?_
      intro c hc
      rcases List.mem_append.mp hc with hc' | hc'
      · rw [h c hc']
        rfl
      · rcases List.mem_singleton.mp hc' with rfl
        rfl
    unfold trimUnderscores
    rw [hin]
    rfl
  rw [normalizeWord, h1, h2]
  rfl

theorem trimUnderscores_letters_digits {w : List Nat} (hne : w ≠ [])
    (h : ∀ c ∈ w, (c == underscoreRune) = false) :
    trimUnderscores (w ++ [underscoreRune]) = w := by
  unfold trimUnderscores
  have hfront : (w ++ [underscoreRune]).dropWhile (fun c => c == underscoreRune)
      = w ++ [underscoreRune] := by
    cases w with
    | nil => exact absurd rfl hne
    | cons a t =>
      rw [List.cons_append, List.dropWhile_cons, if_neg]
      rw [h a (List.mem_cons_self a t)]
      simp
  rw [hfront]
  have hrev : (w ++ [underscoreRune]).reverse = underscoreRune :: w.reverse := by
    simp
  rw [hrev, List.dropWhile_cons, if_pos (by simp),
    dropWhile_eq_self_of_all (fun c hc => h c (List.mem_reverse.mp hc)),
    List.reverse_reverse]

theorem normalizeWord_letters {w : List Nat} (hne : w ≠ [])
    (h : ∀ c ∈ w, (isLowerRune c || isUpperRune c) = true) :
    normalizeWord w = w.map toLowerRune := by
  have h1 : replaceUnsafeTail w = w ++ [underscoreRune] :=
    replaceUnsafeTail_of_safe fun c hc => letter_safe (h c hc)
  have h2 : trimUnderscores (w ++ [underscoreRune]) = w :=
    trimUnderscores_letters_digits hne fun c hc => letter_ne_underscore (h c hc)
  have h3 : trimSpaces (w.map toLowerRune) = w.map toLowerRune := by
    refine trimSpaces_id_of_all ?_
    intro c hc
    obtain ⟨c', hc', rfl⟩ := List.mem_map.mp hc
    exact letter_not_space (Bool.or_eq_true_iff.mpr (Or.inl (toLower_lower (h c' hc'))))
  rw [normalizeWord, h1, h2, h3]

theorem normalizeWord_digits {w : List Nat} (hne : w ≠ [])
    (h : ∀ c ∈ w, isDigitRune c = true) :
    normalizeWord w = w := by
  have h1 : replaceUnsafeTail w = w ++ [underscoreRune] :=
    replaceUnsafeTail_of_safe fun c hc => digit_safe (h c hc)
  have h2 : trimUnderscores (w ++ [underscoreRune]) = w :=
    trimUnderscores_letters_digits hne fun c hc => digit_ne_underscore (h c hc)
  have hmap : w.map toLowerRune = w :=
    (List.map_congr_left fun c hc => toLower_id_of_digit (h c hc)).trans (List.map_id w)
  have h3 : trimSpaces w = w :=
    trimSpaces_id_of_all fun c hc => digit_not_space (h c hc)
  rw [normalizeWord, h1, h2, hmap, h3]

/-- The well-formed shape of every word in the normalizer's output. -/
def GoodWord (w : List Nat) : Prop :=
  w ≠ [] ∧ ((∀ c ∈ w, isLowerRune c = true) ∨ (∀ c ∈ w, isDigitRune c = true))

theorem normalizeWord_good {w : List Nat} (h : GoodWord w) : normalizeWord w = w := by
  obtain ⟨hne, h | h⟩ := h
  · rw [normalizeWord_letters hne
      (fun c hc => Bool.or_eq_true_iff.mpr (Or.inl (h c hc)))]
    exact (List.map_congr_left fun c hc => toLower_id_of_lower (h c hc)).trans
      (List.map_id w)
  · exact normalizeWord_digits hne h

theorem normalizeWord_triRun {w : List Nat} (h : TriRun w) :
    normalizeWord w = [] ∨ GoodWord (normalizeWord w) := by
  rcases h with h | h | h
  · cases hw : w with
    | nil => exact Or.inl (by decide)
    | cons a t =>
      subst hw
      right
      rw [normalizeWord_letters (by simp) h]
      refine ⟨by simp, Or.inl ?_⟩
      intro c hc
      obtain ⟨c', hc', rfl⟩ := List.mem_map.mp hc
      exact toLower_lower (h c' hc')
  · cases hw : w with
    | nil => exact Or.inl (by decide)
    | cons a t =>
      subst hw
      right
      rw [normalizeWord_digits (by simp) h]
      exact ⟨by simp, Or.inr h⟩
  · exact Or.inl (normalizeWord_underscores h)

/-- Every word of `normalizeWords` on an all-safe input is a `GoodWord`. -/
theorem normalizeWords_good (s : List Nat) (hs : ∀ c ∈ s, isSafeRune c = true) :
    ∀ w ∈ normalizeWords s, GoodWord w := by
  intro w hw
  rw [normalizeWords, List.mem_filter] at hw
  obtain ⟨hwm, hwne⟩ := hw
  obtain ⟨r, hr, rfl⟩ := List.mem_map.mp hwm
  rw [camelSplit, List.mem_filter] at hr
  have htri : TriRun r := by
    refine adjustRuns_triRun _ ?_ r hr.1
    intro r0 hr0
    obtain ⟨cl, hcl⟩ := groupRuns_singleClass s r0 hr0
    have hmem : ∀ c ∈ r0, c ∈ s := groupRuns_mem_subset s r0 hr0
    cases cl with
    | lower =>
      exact Or.inl fun c hc => by rw [lower_of_classOf (hcl c hc)]; simp
    | upper =>
      exact Or.inl fun c hc => by rw [upper_of_classOf (hcl c hc)]; simp
    | digit =>
      exact Or.inr (Or.inl fun c hc => digit_of_classOf (hcl c hc))
    | other =>
      exact Or.inr (Or.inr fun c hc =>
        underscore_of_classOf_other (hcl c hc) (hs c (hmem c hc)))
  rcases normalizeWord_triRun htri with hnil | hgood
  · rw [hnil] at hwne
    exact absurd hwne (by simp)
  · exact hgood

/-! ### Stability of the normalizer's output -/

/-- `groupRuns` peels off a leading single-class run when the remainder starts
in a different class. -/
theorem groupRuns_append (cl : RuneClass) :
    ∀ (w rest : List Nat), w ≠ [] → (∀ c ∈ w, classOf c = cl) →
      (rest = [] ∨ classOf (rest.headD 0) ≠ cl) →
      groupRuns (w ++ rest) = w :: groupRuns rest := by
  intro w
  induction w with
  | nil => intro rest h; exact absurd rfl h
  | cons c w' ih =>
    intro rest _ hcl hrest
    cases hw' : w' with
    | nil =>
      subst hw'
      cases rest with
      | nil => rfl
      | cons r0 rest' =>
        obtain ⟨run, runs, hgr⟩ := groupRuns_cons_head r0 rest'
        have hne : classOf c ≠ classOf r0 := by
          rcases hrest with h | h
          · exact absurd h (by simp)
          · rw [hcl c (List.mem_cons_self c [])]
            intro heq
            exact h (by rw [show (r0 :: rest').headD 0 = r0 from rfl, ← heq])
        rw [show ([c] : List Nat) ++ r0 :: rest' = c :: (r0 :: rest') from rfl,
          groupRuns_cons_new c r0 (r0 :: rest') run runs hgr hne, ← hgr]
    | cons c2 w'' =>
      subst hw'
      have hih := ih rest (by simp)
        (fun x hx => hcl x (List.mem_cons_of_mem c hx)) hrest
      have hgr2 : groupRuns (c2 :: (w'' ++ rest)) = (c2 :: w'') :: groupRuns rest := by
        simpa using hih
      have hcc2 : classOf c = classOf c2 := by
        rw [hcl c (List.mem_cons_self c _),
          hcl c2 (List.mem_cons_of_mem c (List.mem_cons_self c2 w''))]
      rw [show (c :: c2 :: w'') ++ rest = c :: (c2 :: (w'' ++ rest)) from by simp,
        groupRuns_cons_same c c2 (c2 :: (w'' ++ rest)) w'' (groupRuns rest) hgr2 hcc2]

theorem joinUnderscore_headD (w : List Nat) (ws : List (List Nat)) (hne : w ≠ []) :
    (joinUnderscore (w :: ws)).headD 0 = w.headD 0 := by
  cases ws with
  | nil => rfl
  | cons w2 ws' =>
    cases w with
    | nil => exact absurd rfl hne
    | cons a t => rfl

/-- The run list of a well-formed joined output: the words with singleton
underscore runs between them. -/
def interleave : List (List Nat) → List (List Nat)
  | [] => []
  | [w] => [w]
  | w :: ws => w :: [underscoreRune] :: interleave ws

theorem groupRuns_join :
    ∀ ws : List (List Nat), (∀ w ∈ ws, GoodWord w) →
      groupRuns (joinUnderscore ws) = interleave ws := by
  intro ws
  induction ws with
  | nil => intro _; rfl
  | cons w ws' ih =>
    intro h
    obtain ⟨hne, hcls⟩ := h w (List.mem_cons_self w ws')
    have hclw : ∃ cl, (cl = RuneClass.lower ∨ cl = RuneClass.digit) ∧
        ∀ c ∈ w, classOf c = cl := by
      rcases hcls with h' | h'
      · exact ⟨.lower, Or.inl rfl, fun c hc => by rw [classOf, if_pos (h' c hc)]⟩
      · refine ⟨.digit, Or.inr rfl, ?_⟩
        intro c hc
        rw [classOf, if_neg (by rw [not_lower_of_digit (h' c hc)]; simp),
          if_neg (by rw [not_upper_of_digit (h' c hc)]; simp), if_pos (h' c hc)]
    obtain ⟨cl, hcl01, hclw⟩ := hclw
    cases ws' with
    | nil =>
      have hw := groupRuns_append cl w [] hne hclw (Or.inl rfl)
      rw [show w ++ ([] : List Nat) = w from by simp] at hw
      rw [show joinUnderscore [w] = w from rfl, hw]
      rfl
    | cons w2 ws'' =>
      obtain ⟨hne2, hcls2⟩ := h w2 (List.mem_cons_of_mem w (List.mem_cons_self w2 ws''))
      rw [show joinUnderscore (w :: w2 :: ws'')
        = w ++ underscoreRune :: joinUnderscore (w2 :: ws'') from rfl]
      have hs1 : groupRuns (w ++ underscoreRune :: joinUnderscore (w2 :: ws''))
          = w :: groupRuns (underscoreRune :: joinUnderscore (w2 :: ws'')) := by
        refine groupRuns_append cl w _ hne hclw (Or.inr ?_)
        rw [show (underscoreRune :: joinUnderscore (w2 :: ws'')).headD 0
          = underscoreRune from rfl]
        rcases hcl01 with rfl | rfl <;> decide
      have hs2 : groupRuns (underscoreRune :: joinUnderscore (w2 :: ws''))
          = [underscoreRune] :: groupRuns (joinUnderscore (w2 :: ws'')) := by
        refine groupRuns_append .other [underscoreRune] _ (by simp) ?_ (Or.inr ?_)
        · intro c hc
          rcases List.mem_singleton.mp hc with rfl
          decide
        · rw [joinUnderscore_headD w2 ws'' hne2]
          have hmem : w2.headD 0 ∈ w2 := headD_mem hne2
          rcases hcls2 with h' | h'
          · rw [classOf, if_pos (h' _ hmem)]
            simp
          · rw [classOf, if_neg (by rw [not_lower_of_digit (h' _ hmem)]; simp),
              if_neg (by rw [not_upper_of_digit (h' _ hmem)]; simp), if_pos (h' _ hmem)]
            simp
      rw [hs1, hs2, ih (fun x hx => h x (List.mem_cons_of_mem w hx))]
      rfl

theorem adjustAux_id :
    ∀ (rest : List (List Nat)) (r1 : List Nat), isUpperRune (r1.headD 0) = false →
      (∀ r ∈ rest, isUpperRune (r.headD 0) = false) → adjustAux r1 rest = r1 :: rest := by
  intro rest
  induction rest with
  | nil => intro r1 _ _; rfl
  | cons r2 rest' ih =>
    intro r1 h1 hrest
    rw [adjustAux, if_neg (by rw [h1]; simp)]
    rw [ih r2 (hrest r2 (List.mem_cons_self r2 rest'))
      (fun r hr => hrest r (List.mem_cons_of_mem r2 hr))]

theorem mem_interleave :
    ∀ (ws : List (List Nat)) (r : List Nat), r ∈ interleave ws →
      r ∈ ws ∨ r = [underscoreRune] := by
  intro ws
  induction ws with
  | nil => intro r hr; exact absurd hr (by simp [interleave])
  | cons w ws' ih =>
    intro r hr
    cases ws' with
    | nil =>
      rcases List.mem_singleton.mp hr with rfl
      exact Or.inl (List.mem_cons_self r [])
    | cons w2 ws'' =>
      rw [show interleave (w :: w2 :: ws'')
        = w :: [underscoreRune] :: interleave (w2 :: ws'') from rfl] at hr
      rcases List.mem_cons.mp hr with rfl | hr'
      · exact Or.inl (List.mem_cons_self r _)
      · rcases List.mem_cons.mp hr' with rfl | hr''
        · exact Or.inr rfl
        · rcases ih r hr'' with h' | h'
          · exact Or.inl (List.mem_cons_of_mem w h')
          · exact Or.inr h'

theorem interleave_heads (ws : List (List Nat)) (h : ∀ w ∈ ws, GoodWord w) :
    ∀ r ∈ interleave ws, isUpperRune (r.headD 0) = false := by
  intro r hr
  rcases mem_interleave ws r hr with hr' | rfl
  · obtain ⟨hne, hcls⟩ := h r hr'
    have hm : r.headD 0 ∈ r := headD_mem hne
    rcases hcls with h' | h'
    · exact not_upper_of_lower (h' _ hm)
    · exact not_upper_of_digit (h' _ hm)
  · decide

theorem adjustRuns_interleave (ws : List (List Nat)) (h : ∀ w ∈ ws, GoodWord w) :
    adjustRuns (interleave ws) = interleave ws := by
  cases hws : interleave ws with
  | nil => rfl
  | cons r rest =>
    have hh := interleave_heads ws h
    rw [hws] at hh
    rw [adjustRuns]
    exact adjustAux_id rest r (hh r (List.mem_cons_self r rest))
      (fun x hx => hh x (List.mem_cons_of_mem r hx))

theorem filter_interleave (ws : List (List Nat)) (h : ∀ w ∈ ws, GoodWord w) :
    (interleave ws).filter (fun r => !r.isEmpty) = interleave ws := by
  refine List.filter_eq_self.mpr ?_
  intro r hr
  rcases mem_interleave ws r hr with hr' | rfl
  · obtain ⟨hne, _⟩ := h r hr'
    cases r with
    | nil => exact absurd rfl hne
    | cons a t => rfl
  · rfl

theorem mapFilter_interleave :
    ∀ ws : List (List Nat), (∀ w ∈ ws, GoodWord w) →
      ((interleave ws).map normalizeWord).filter (fun r => !r.isEmpty) = ws := by
  intro ws
  induction ws with
  | nil => intro _; rfl
  | cons w ws' ih =>
    intro h
    have hgw := h w (List.mem_cons_self w ws')
    have hwkeep : (!(normalizeWord w).isEmpty) = true := by
      rw [normalizeWord_good hgw]
      cases hw0 : w with
      | nil => exact absurd hw0 hgw.1
      | cons a t => rfl
    cases ws' with
    | nil =>
      rw [show interleave [w] = [w] from rfl, List.map_cons, List.map_nil,
        List.filter_cons, if_pos hwkeep, normalizeWord_good hgw]
      rfl
    | cons w2 ws'' =>
      rw [show interleave (w :: w2 :: ws'')
          = w :: [underscoreRune] :: interleave (w2 :: ws'') from rfl,
        List.map_cons, List.map_cons, List.filter_cons, if_pos hwkeep,
        normalizeWord_good hgw, List.filter_cons,
        if_neg (by rw [show normalizeWord [underscoreRune] = [] from by decide]; simp),
        ih (fun x hx => h x (List.mem_cons_of_mem w hx))]

/-- A `GoodWord` list is a fixed point of the whole word pipeline. -/
theorem normalizeWords_join (ws : List (List Nat)) (h : ∀ w ∈ ws, GoodWord w) :
    normalizeWords (joinUnderscore ws) = ws := by
  rw [normalizeWords, camelSplit, groupRuns_join ws h, adjustRuns_interleave ws h,
    filter_interleave ws h, mapFilter_interleave ws h]

/-- **C9, amended.**  `NormalizeMetricName` is idempotent on inputs made of
scraper-safe characters (`[A-Za-z0-9_]`); the counterexample shows idempotence
fails in general as soon as other characters appear inside a word. -/
theorem normalize_idempotent_on_safe (s : List Nat)
    (hs : ∀ c ∈ s, isSafeRune c = true) :
    NormalizeMetricName (NormalizeMetricName s) = NormalizeMetricName s := by
  unfold NormalizeMetricName
  rw [normalizeWords_join (normalizeWords s) (normalizeWords_good s hs)]

/-- Witness for the amended C9 theorem on the safe input `"Ab_c1"`. -/
theorem normalize_idempotent_on_safe_witness :
    NormalizeMetricName (NormalizeMetricName [65, 98, 95, 99, 49])
      = NormalizeMetricName [65, 98, 95, 99, 49] :=
  normalize_idempotent_on_safe [65, 98, 95, 99, 49] (by decide)

end Stackdriver
